import Mathlib

/-!
Verification of the BER-TLV codec (moov-io/bertlv).

The Go source is shallowly embedded: bytes are `Nat` (kept `< 256` where it
matters), `[]byte` is `List Nat`, `string` is `String`, fallible functions
return `Except String` or `Option`.  Functions that in Go return a consumed
byte count together with advancing `data = data[read:]` instead return the
unread remainder of the list, which is the same information.  Definitions
follow the source file by file; definitions marked "spec-side" transcribe the
specification's words for refinement comparisons.
-/

set_option maxHeartbeats 1000000
set_option linter.unusedVariables false

namespace BerTLV

/-! ### Hex encoding primitives (Go `encoding/hex`, `strings.ToUpper`) -/

/-- Go `hex` package digit table `"0123456789abcdef"`. -/
def hextable : String :=
  "0123456789abcdef"

/-- One lowercase hex digit, `hextable[n]`. -/
def lowerHexDigit (n : Nat) : Char :=
  hextable.data.getD n '0'

/-- Go `hex.EncodeToString`: each byte becomes `hextable[b>>4], hextable[b&0x0f]`. -/
def hexEncodeToString (bs : List Nat) : String :=
  String.mk (bs.foldr (fun b acc => lowerHexDigit (b >>> 4) :: lowerHexDigit (b &&& 15) :: acc) [])

/-- Go `strings.ToUpper` (ASCII, which is all that hex digits need). -/
def toUpperString (s : String) : String :=
  String.mk (s.data.map Char.toUpper)

/-- `strings.ToUpper(hex.EncodeToString(bs))`, the tag text Decode produces;
also the rendering of the `%X` format verb on a byte slice. -/
def upperHex (bs : List Nat) : String :=
  toUpperString (hexEncodeToString bs)

/-- Go `hex` package `fromHexChar`: value of one hex digit, either case. -/
def fromHexChar (c : Char) : Option Nat :=
  if 48 ≤ c.toNat ∧ c.toNat ≤ 57 then some (c.toNat - 48)
  else if 97 ≤ c.toNat ∧ c.toNat ≤ 102 then some (c.toNat - 97 + 10)
  else if 65 ≤ c.toNat ∧ c.toNat ≤ 70 then some (c.toNat - 65 + 10)
  else none

/-- Go `hex.DecodeString`: pairs of hex digits to bytes; fails on an odd
length or an invalid digit. -/
def hexDecode : List Char → Option (List Nat)
  | [] => some []
  | [_] => none
  | c1 :: c2 :: rest =>
    match fromHexChar c1, fromHexChar c2, hexDecode rest with
    | some hi, some lo, some bs => some (((hi <<< 4) ||| lo) :: bs)
    | _, _, _ => none

/-! ### Bit-arithmetic bridges

The source tests and packs bits with `&`, `|`, `<<`, `>>`.  These lemmas
restate the fixed-mask operations as `%`, `/`, `*` arithmetic, which is what
the proofs (and `omega`) work with. -/

/-- Disjoint or is addition: the low `k` bits of `a <<< k` are clear. -/
theorem lorShl (k a : Nat) {x : Nat} (h : x < 2 ^ k) : (a <<< k) ||| x = a <<< k + x := by
  apply Nat.eq_of_testBit_eq
  intro i
  rw [Nat.testBit_lor, Nat.shiftLeft_eq, Nat.mul_comm,
    Nat.testBit_mul_pow_two_add a h i, Nat.testBit_mul_pow_two]
  by_cases hik : i < k
  · simp [hik, Nat.not_le_of_lt hik]
  · have hx : Nat.testBit x i = false :=
      Nat.testBit_lt_two_pow
        (lt_of_lt_of_le h (Nat.pow_le_pow_right (by norm_num) (Nat.le_of_not_lt hik)))
    simp [hik, Nat.le_of_not_lt hik, hx]

/-- The mask `& 0xFF` is `% 256`. -/
theorem and255 (n : Nat) : n &&& 255 = n % 256 := by
  simpa using Nat.and_pow_two_sub_one_eq_mod n 8

/-- The mask `& 0b0111_1111` is `% 128`. -/
theorem and127 (n : Nat) : n &&& 127 = n % 128 := by
  simpa using Nat.and_pow_two_sub_one_eq_mod n 7

/-- The mask `& 0b0001_1111` is `% 32`. -/
theorem and31 (n : Nat) : n &&& 31 = n % 32 := by
  simpa using Nat.and_pow_two_sub_one_eq_mod n 5

/-- The mask `& 0x0F` is `% 16`. -/
theorem and15 (n : Nat) : n &&& 15 = n % 16 := by
  simpa using Nat.and_pow_two_sub_one_eq_mod n 4

/-- The single-bit mask `& 0b1000_0000` extracts bit 7. -/
theorem and128 (n : Nat) : n &&& 128 = n / 128 % 2 * 128 := by
  have h := Nat.and_two_pow n 7
  rw [Nat.testBit_to_div_mod] at h
  norm_num at h
  rw [h]
  rcases Nat.mod_two_eq_zero_or_one (n / 128) with h2 | h2 <;> simp [h2]

/-- The single-bit mask `& 0b0010_0000` extracts bit 5. -/
theorem and32 (n : Nat) : n &&& 32 = n / 32 % 2 * 32 := by
  have h := Nat.and_two_pow n 5
  rw [Nat.testBit_to_div_mod] at h
  norm_num at h
  rw [h]
  rcases Nat.mod_two_eq_zero_or_one (n / 32) with h2 | h2 <;> simp [h2]

/-- `>> 8` is division by 256. -/
theorem shr8 (n : Nat) : n >>> 8 = n / 256 := by
  rw [Nat.shiftRight_eq_div_pow]

/-- `>> 4` is division by 16. -/
theorem shr4 (n : Nat) : n >>> 4 = n / 16 := by
  rw [Nat.shiftRight_eq_div_pow]

/-- `<< 8` is multiplication by 256. -/
theorem shl8 (n : Nat) : n <<< 8 = n * 256 := by
  rw [Nat.shiftLeft_eq]

/-- `<< 4` is multiplication by 16. -/
theorem shl4 (n : Nat) : n <<< 4 = n * 16 := by
  rw [Nat.shiftLeft_eq]

/-- Packing a byte into an accumulator, arithmetically. -/
theorem shl8_lor (a : Nat) {x : Nat} (h : x < 256) : (a <<< 8) ||| x = a * 256 + x := by
  rw [lorShl 8 a (by simpa using h), shl8]

/-- Packing a hex digit into a byte, arithmetically. -/
theorem shl4_lor (a : Nat) {x : Nat} (h : x < 16) : (a <<< 4) ||| x = a * 16 + x := by
  rw [lorShl 4 a (by simpa using h), shl4]

/-- The long-form lead byte `0b1000_0000 | k` is `128 + k` for `k < 128`. -/
theorem lor128 {k : Nat} (h : k < 128) : 128 ||| k = 128 + k := by
  have h2 := @lorShl 7 1 k (by simpa using h)
  norm_num [Nat.shiftLeft_eq] at h2
  exact h2


/-! ### Facts about the hex primitives -/

theorem fromHexChar_lt {c : Char} {v : Nat} (h : fromHexChar c = some v) : v < 16 := by
  unfold fromHexChar at h
  split at h
  · simp only [Option.some.injEq] at h; omega
  · split at h
    · simp only [Option.some.injEq] at h; omega
    · split at h
      · simp only [Option.some.injEq] at h; omega
      · exact absurd h (by simp)

theorem toUpper_lowerHexDigit {c : Char} {v : Nat} (h : fromHexChar c = some v) :
    Char.toUpper (lowerHexDigit v) = Char.toUpper c := by
  have hc : c = Char.ofNat c.toNat := (Char.ofNat_toNat c).symm
  unfold fromHexChar at h
  split at h
  case isTrue h1 =>
    simp only [Option.some.injEq] at h
    subst h
    obtain ⟨hl, hr⟩ := h1
    conv_rhs => rw [hc]
    generalize c.toNat = n at hl hr ⊢
    interval_cases n <;> decide
  case isFalse h1 =>
    split at h
    case isTrue h2 =>
      simp only [Option.some.injEq] at h
      subst h
      obtain ⟨hl, hr⟩ := h2
      conv_rhs => rw [hc]
      generalize c.toNat = n at hl hr ⊢
      interval_cases n <;> decide
    case isFalse h2 =>
      split at h
      case isTrue h3 =>
        simp only [Option.some.injEq] at h
        subst h
        obtain ⟨hl, hr⟩ := h3
        conv_rhs => rw [hc]
        generalize c.toNat = n at hl hr ⊢
        interval_cases n <;> decide
      case isFalse h3 => exact absurd h (by simp)

theorem fromHexChar_upper {d : Nat} (h : d < 16) :
    fromHexChar (Char.toUpper (lowerHexDigit d)) = some d := by
  interval_cases d <;> decide

theorem hexDecode_lt : ∀ (cs : List Char) (bs : List Nat), hexDecode cs = some bs →
    ∀ x ∈ bs, x < 256
  | [], bs, h => by
    simp only [hexDecode, Option.some.injEq] at h
    simp [← h]
  | [c], bs, h => by simp [hexDecode] at h
  | c1 :: c2 :: rest, bs, h => by
    simp only [hexDecode] at h
    cases h1 : fromHexChar c1 with
    | none => rw [h1] at h; simp at h
    | some hi =>
      cases h2 : fromHexChar c2 with
      | none => rw [h1, h2] at h; simp at h
      | some lo =>
        cases h3 : hexDecode rest with
        | none => rw [h1, h2, h3] at h; simp at h
        | some bs0 =>
          rw [h1, h2, h3] at h
          simp only [Option.some.injEq] at h
          subst h
          intro x hx
          rcases List.mem_cons.mp hx with hx | hx
          · subst hx
            have hhi := fromHexChar_lt h1
            have hlo := fromHexChar_lt h2
            rw [shl4_lor hi (by omega)]
            omega
          · exact hexDecode_lt rest bs0 h3 x hx

theorem upperHex_data (bs : List Nat) :
    (upperHex bs).data =
      bs.foldr (fun b acc =>
        Char.toUpper (lowerHexDigit (b >>> 4)) :: Char.toUpper (lowerHexDigit (b &&& 15)) :: acc)
        [] := by
  induction bs with
  | nil => rfl
  | cons b rest ih =>
    simp only [upperHex, toUpperString, hexEncodeToString, List.foldr_cons] at ih ⊢
    simp [ih]

theorem upperHex_of_hexDecode : ∀ (cs : List Char) (bs : List Nat), hexDecode cs = some bs →
    (upperHex bs).data = cs.map Char.toUpper
  | [], bs, h => by
    simp only [hexDecode, Option.some.injEq] at h
    simp [← h, upperHex, toUpperString, hexEncodeToString]
  | [c], bs, h => by simp [hexDecode] at h
  | c1 :: c2 :: rest, bs, h => by
    simp only [hexDecode] at h
    cases h1 : fromHexChar c1 with
    | none => rw [h1] at h; simp at h
    | some hi =>
      cases h2 : fromHexChar c2 with
      | none => rw [h1, h2] at h; simp at h
      | some lo =>
        cases h3 : hexDecode rest with
        | none => rw [h1, h2, h3] at h; simp at h
        | some bs0 =>
          rw [h1, h2, h3] at h
          simp only [Option.some.injEq] at h
          subst h
          have hhi := fromHexChar_lt h1
          have hlo := fromHexChar_lt h2
          have hb : (hi <<< 4) ||| lo = hi * 16 + lo := shl4_lor hi hlo
          have hshr : ((hi <<< 4) ||| lo) >>> 4 = hi := by
            rw [hb, shr4]
            omega
          have hand : ((hi <<< 4) ||| lo) &&& 15 = lo := by
            rw [hb, and15]
            omega
          rw [upperHex_data] at *
          simp only [List.foldr_cons, List.map_cons, hshr, hand]
          rw [toUpper_lowerHexDigit h1, toUpper_lowerHexDigit h2]
          have ih := upperHex_of_hexDecode rest bs0 h3
          rw [upperHex_data] at ih
          simp [ih]

theorem hexDecode_upperHex : ∀ (bs : List Nat), (∀ x ∈ bs, x < 256) →
    hexDecode (upperHex bs).data = some bs
  | [], h => by simp [upperHex, toUpperString, hexEncodeToString, hexDecode]
  | b :: rest, h => by
    rw [upperHex_data]
    simp only [List.foldr_cons]
    have hb : b < 256 := h b (by simp)
    have h4 : b >>> 4 < 16 := by rw [shr4]; omega
    have h15 : b &&& 15 < 16 := by rw [and15]; omega
    simp only [hexDecode, fromHexChar_upper h4, fromHexChar_upper h15]
    have ih := hexDecode_upperHex rest (fun x hx => h x (by simp [hx]))
    rw [upperHex_data] at ih
    rw [ih]
    have : ((b >>> 4) <<< 4) ||| (b &&& 15) = b := by
      rw [shl4_lor _ h15, shr4, and15]
      omega
    simp [this]

/-! ### Tag and length grammar primitives (tlv.go) -/

/-- `tag[0]&0b0001_1111 == 0b0001_1111`: low five bits of the first byte all
set signal a multi-byte tag.  (Go indexes `tag[0]`; the empty case is
unreachable at every call site.) -/
def isMultiByte (tag : List Nat) : Bool :=
  match tag with
  | [] => false
  | b :: _ => b &&& 31 == 31

/-- `tag[0]&0b0010_0000 == 0b0010_0000`: bit 0x20 of the first byte marks a
constructed (composite) tag. -/
def isConstructed (tag : List Nat) : Bool :=
  match tag with
  | [] => false
  | b :: _ => b &&& 32 == 32

/-- Go `validateTag`.  The middle-byte loop is rendered as an `all` over the
bytes between the first and the last; Go's error names the failing index,
which is collapsed into one message here. -/
def validateTag (tag : List Nat) : Except String Unit :=
  if tag.length == 0 then .error "tag cannot be empty"
  else if !isMultiByte tag then
    if tag.length > 1 then
      .error "invalid tag format: single-byte tag should not have additional bytes"
    else .ok ()
  else if tag.length < 2 then
    .error "multi-byte tag is incomplete; additional bytes are required"
  else if tag.getLastD 0 &&& 128 == 128 then
    .error "invalid tag format: last byte must not have MSB set"
  else if !((tag.drop 1).dropLast.all (fun b => b &&& 128 == 128)) then
    .error "invalid tag format: middle byte should have MSB set"
  else .ok ()

/-- The scan in Go `decodeTag` from index 1 onward: continuation bytes carry
the MSB, the first byte without it ends the tag.  Returns the scanned bytes
and the remainder, `none` when the buffer ends first. -/
def tagCont : List Nat → Option (List Nat × List Nat)
  | [] => none
  | c :: rest =>
    if c &&& 128 == 128 then
      match tagCont rest with
      | some (t, r) => some (c :: t, r)
      | none => none
    else some ([c], rest)

/-- Go `decodeTag`: the tag bytes and the unread remainder (Go returns the
consumed count and the caller slices it off). -/
def decodeTag (data : List Nat) : Except String (List Nat × List Nat) :=
  match data with
  | [] => .error "tag is empty"
  | b :: rest =>
    if isMultiByte data then
      match tagCont rest with
      | some (t, r) => .ok (b :: t, r)
      | none => .error "tag is incomplete"
    else .ok ([b], rest)

/-- Fuelled form of the loop of Go `encodeLength` (`n` itself is always
enough fuel, so the out-of-fuel branch is unreachable from `lengthBytesOf`):
big-endian bytes of the value, produced by repeatedly prepending
`byte(length & 0xFF)` and shifting by 8. -/
def lengthBytesOfAux : Nat → Nat → List Nat
  | _, 0 => []
  | 0, _ + 1 => []
  | fuel + 1, n + 1 => lengthBytesOfAux fuel ((n + 1) >>> 8) ++ [(n + 1) &&& 255]

/-- The loop of Go `encodeLength`: big-endian bytes of `length`. -/
def lengthBytesOf (n : Nat) : List Nat :=
  lengthBytesOfAux n n

/-- The fuel does not matter while it covers the value. -/
theorem lengthBytesOfAux_congr :
    ∀ fuel fuel' n, n ≤ fuel → n ≤ fuel' → lengthBytesOfAux fuel n = lengthBytesOfAux fuel' n := by
  intro fuel
  induction fuel with
  | zero =>
    intro fuel' n h h'
    interval_cases n
    cases fuel' <;> rfl
  | succ f ih =>
    intro fuel' n h h'
    cases n with
    | zero => cases fuel' <;> rfl
    | succ m =>
      cases fuel' with
      | zero => omega
      | succ f' =>
        simp only [lengthBytesOfAux]
        congr 1
        apply ih
        · rw [shr8]; omega
        · rw [shr8]; omega

/-- The recurrence the Go loop satisfies. -/
theorem lengthBytesOf_eq (n : Nat) :
    lengthBytesOf n = if n = 0 then [] else lengthBytesOf (n >>> 8) ++ [n &&& 255] := by
  cases n with
  | zero => rfl
  | succ m =>
    simp only [Nat.succ_ne_zero, if_neg, lengthBytesOf, lengthBytesOfAux]
    congr 1
    apply lengthBytesOfAux_congr
    · rw [shr8]; omega
    · rfl

/-- Go `encodeLength`: one byte below 128 (short form), otherwise
`0b1000_0000 | k` followed by the `k` big-endian bytes (long form). -/
def encodeLength (length : Nat) : List Nat :=
  if length < 128 then [length]
  else (128 ||| (lengthBytesOf length).length) :: lengthBytesOf length

/-- Go `decodeLength`: the decoded length and the unread remainder.  Go's
bound check `len(data) < lengthBytes+1` counts the lead byte, hence
`rest.length < lengthBytes` here; the big-endian fold is Go's
`length = length<<8 | int(data[i])`, whose accumulator is a 64-bit `int`
and therefore wraps modulo `2^64` at every step — a length field of nine
or more significant bytes overflows.  The result is kept as the unsigned
64-bit pattern (a value at least `2^63` is negative as a Go `int`; `Decode`
interprets it that way). -/
def decodeLength (data : List Nat) : Except String (Nat × List Nat) :=
  match data with
  | [] => .error "length is empty"
  | b :: rest =>
    if b < 128 then .ok (b, rest)
    else
      let lengthBytes := b &&& 127
      if rest.length < lengthBytes then .error "length is incomplete"
      else
        .ok ((rest.take lengthBytes).foldl (fun acc x => ((acc <<< 8) ||| x) % 2 ^ 64) 0,
          rest.drop lengthBytes)


/-! ### Facts about the tag grammar -/

theorem getLastD_irrel : ∀ (l : List Nat) (d d' : Nat), l ≠ [] → l.getLastD d = l.getLastD d'
  | [], _, _, h => absurd rfl h
  | [x], _, _, _ => rfl
  | x :: y :: t, d, d', _ => by
    rw [List.getLastD_cons, List.getLastD_cons d']

theorem isMultiByte_cons (b : Nat) (l : List Nat) : isMultiByte (b :: l) = (b &&& 31 == 31) := rfl

theorem tagCont_cons (c : Nat) (rest : List Nat) :
    tagCont (c :: rest) =
      if c &&& 128 == 128 then
        (match tagCont rest with
         | some (t, r) => some (c :: t, r)
         | none => none)
      else some ([c], rest) := rfl

/-- The shape `validateTag` accepts: a lone byte without the multi-byte
marker, or a marker byte followed by MSB-set continuation bytes and one final
byte with the MSB clear. -/
theorem validateTag_ok_iff (tag : List Nat) : validateTag tag = .ok () ↔
    ((∃ b, tag = [b] ∧ ¬(b &&& 31 = 31)) ∨
     (∃ b rest, tag = b :: rest ∧ b &&& 31 = 31 ∧ rest ≠ [] ∧
       (∀ x ∈ rest.dropLast, x &&& 128 = 128) ∧ ¬(rest.getLastD 0 &&& 128 = 128))) := by
  cases tag with
  | nil => simp [validateTag]
  | cons b rest =>
    unfold validateTag
    rw [if_neg (by simp), isMultiByte_cons]
    by_cases hmb : b &&& 31 = 31
    · simp only [hmb, beq_self_eq_true, Bool.not_true, Bool.false_eq_true, if_false]
      cases rest with
      | nil => simp [hmb]
      | cons y t =>
        rw [if_neg (by simp)]
        have hgl : (b :: y :: t).getLastD 0 = (y :: t).getLastD 0 := by
          rw [List.getLastD_cons]
          exact getLastD_irrel (y :: t) b 0 (by simp)
        rw [hgl]
        have hdrop : (b :: y :: t).drop 1 = y :: t := rfl
        rw [hdrop]
        split_ifs with hlast hmid
        · constructor
          · intro h; simp at h
          · rintro (⟨c, hc, -⟩ | ⟨c, r2, heq, -, -, -, hl⟩)
            · simp at hc
            · injection heq with h1 h2
              subst h2
              exact absurd (by simpa using hlast) hl
        · constructor
          · intro h; simp at h
          · rintro (⟨c, hc, -⟩ | ⟨c, r2, heq, -, -, hm, -⟩)
            · simp at hc
            · injection heq with h1 h2
              subst h2
              have : ((y :: t).dropLast.all fun b => b &&& 128 == 128) = true := by
                simp only [List.all_eq_true, beq_iff_eq]
                exact hm
              simp [this] at hmid
        · constructor
          · intro h
            have hmid2 : ((y :: t).dropLast.all fun b => b &&& 128 == 128) = true := by
              revert hmid
              cases ((y :: t).dropLast.all fun b => b &&& 128 == 128) <;> simp
            refine Or.inr ⟨b, y :: t, rfl, hmb, by simp, ?_, by simpa using hlast⟩
            simpa using hmid2
          · intro h2
            rfl
    · have hcond : (!(b &&& 31 == 31)) = true := by
        simp only [Bool.not_eq_true', beq_eq_false_iff_ne, ne_eq]
        exact hmb
      rw [if_pos hcond]
      cases rest with
      | nil =>
        rw [if_neg (by simp)]
        constructor
        · intro h2
          exact Or.inl ⟨b, rfl, hmb⟩
        · intro h2
          rfl
      | cons y t =>
        rw [if_pos (by simp)]
        constructor
        · intro h; simp at h
        · rintro (⟨c, hc, -⟩ | ⟨c, r2, heq, hc31, -, -, -⟩)
          · simp at hc
          · injection heq with h1 h2
            subst h1
            exact absurd hc31 hmb

theorem tagCont_append :
    ∀ (rest : List Nat), rest ≠ [] → (∀ x ∈ rest.dropLast, x &&& 128 = 128) →
      ¬(rest.getLastD 0 &&& 128 = 128) → ∀ (suffix : List Nat),
      tagCont (rest ++ suffix) = some (rest, suffix)
  | [], hne, _, _, _ => absurd rfl hne
  | [x], _, _, hlast, suffix => by
    simp only [List.getLastD] at hlast
    simp only [List.cons_append, List.nil_append, tagCont_cons]
    rw [if_neg (by simpa using hlast)]
  | x :: y :: t, _, hmid, hlast, suffix => by
    have hx : x &&& 128 = 128 := hmid x (by simp)
    have hrec := tagCont_append (y :: t) (by simp)
      (fun z hz => hmid z (by simp [hz]))
      (by
        rw [getLastD_irrel (y :: t) 0 x (by simp), ← List.getLastD_cons]
        exact hlast)
      suffix
    rw [List.cons_append, tagCont_cons, if_pos (by simpa using hx), hrec]

/-- A shape-valid tag placed in front of any suffix is read back whole. -/
theorem decodeTag_append {tag : List Nat} (h : validateTag tag = .ok ()) (suffix : List Nat) :
    decodeTag (tag ++ suffix) = .ok (tag, suffix) := by
  rcases (validateTag_ok_iff tag).mp h with ⟨b, rfl, hb⟩ | ⟨b, rest, rfl, hb, hne, hmid, hlast⟩
  · simp only [List.cons_append, List.nil_append, decodeTag, isMultiByte_cons]
    rw [if_neg (by simpa using hb)]
  · simp only [List.cons_append, decodeTag, isMultiByte_cons]
    rw [if_pos (by simpa using hb), tagCont_append rest hne hmid hlast suffix]

theorem tagCont_structure :
    ∀ {l t r : List Nat}, tagCont l = some (t, r) →
      l = t ++ r ∧ t ≠ [] ∧ (∀ x ∈ t.dropLast, x &&& 128 = 128) ∧
        ¬(t.getLastD 0 &&& 128 = 128)
  | [], t, r, h => by simp [tagCont] at h
  | c :: rest, t, r, h => by
    rw [tagCont_cons] at h
    split at h
    · rename_i hc
      cases hrec : tagCont rest with
      | none => rw [hrec] at h; simp at h
      | some p =>
        rw [hrec] at h
        cases p with
        | mk t0 r0 =>
          simp only [Option.some.injEq, Prod.mk.injEq] at h
          obtain ⟨rfl, rfl⟩ : c :: t0 = t ∧ r0 = r := h
          obtain ⟨hl, hne0, hmid0, hlast0⟩ := tagCont_structure hrec
          refine ⟨by simp [hl], by simp, ?_, ?_⟩
          · intro x hx
            cases t0 with
            | nil => exact absurd rfl hne0
            | cons z zs =>
              rcases List.mem_cons.mp (by simpa using hx) with rfl | hx2
              · simpa using hc
              · exact hmid0 x (by simpa using hx2)
          · cases t0 with
            | nil => exact absurd rfl hne0
            | cons z zs =>
              rw [List.getLastD_cons, getLastD_irrel (z :: zs) c 0 (by simp)]
              exact hlast0
    · rename_i hc
      simp only [Option.some.injEq, Prod.mk.injEq] at h
      obtain ⟨rfl, rfl⟩ : [c] = t ∧ rest = r := h
      refine ⟨rfl, by simp, by simp, by simpa using hc⟩

/-- What `decodeTag` returns is a shape-valid prefix of its input. -/
theorem decodeTag_structure {data t r : List Nat} (h : decodeTag data = .ok (t, r)) :
    data = t ++ r ∧ validateTag t = .ok () := by
  cases data with
  | nil => simp [decodeTag] at h
  | cons b rest =>
    simp only [decodeTag] at h
    split at h
    · rename_i hmb
      cases hc : tagCont rest with
      | none => rw [hc] at h; simp at h
      | some p =>
        rw [hc] at h
        cases p with
        | mk t0 r0 =>
          simp only [Except.ok.injEq, Prod.mk.injEq] at h
          obtain ⟨rfl, rfl⟩ : b :: t0 = t ∧ r0 = r := h
          obtain ⟨hl, hne0, hmid0, hlast0⟩ := tagCont_structure hc
          constructor
          · simp [hl]
          · rw [isMultiByte_cons] at hmb
            exact (validateTag_ok_iff _).mpr
              (Or.inr ⟨b, t0, rfl, by simpa using hmb, hne0, hmid0, hlast0⟩)
    · rename_i hmb
      simp only [Except.ok.injEq, Prod.mk.injEq] at h
      obtain ⟨rfl, rfl⟩ : [b] = t ∧ rest = r := h
      refine ⟨rfl, (validateTag_ok_iff _).mpr (Or.inl ⟨b, rfl, ?_⟩)⟩
      rw [isMultiByte_cons] at hmb
      simpa using hmb


/-! ### Facts about the length forms -/

theorem lengthBytesOf_lt (n : Nat) : ∀ x ∈ lengthBytesOf n, x < 256 := by
  induction n using Nat.strong_induction_on with
  | _ n ih =>
    rw [lengthBytesOf_eq]
    split
    · simp
    · rename_i hn
      intro x hx
      rcases List.mem_append.mp hx with hx | hx
      · exact ih (n >>> 8) (by rw [shr8]; omega) x hx
      · simp only [List.mem_singleton] at hx
        subst hx
        rw [and255]
        omega

/-- Reading the big-endian bytes back with the decoder's accumulator loop
recovers the value. -/
theorem lengthBytesOf_foldl (n : Nat) :
    (lengthBytesOf n).foldl (fun acc x => (acc <<< 8) ||| x) 0 = n := by
  induction n using Nat.strong_induction_on with
  | _ n ih =>
    rw [lengthBytesOf_eq]
    split
    · rename_i hn; simp [hn]
    · rename_i hn
      rw [List.foldl_append]
      rw [ih (n >>> 8) (by rw [shr8]; omega)]
      simp only [List.foldl_cons, List.foldl_nil]
      rw [and255, shl8_lor _ (by omega), shr8]
      omega

theorem lengthBytesOf_length_le {n k : Nat} (h : n < 256 ^ k) :
    (lengthBytesOf n).length ≤ k := by
  induction k generalizing n with
  | zero =>
    simp only [pow_zero, Nat.lt_one_iff] at h
    subst h
    rw [lengthBytesOf_eq]
    simp
  | succ m ih =>
    rw [lengthBytesOf_eq]
    split
    · simp
    · rename_i hn
      have : (lengthBytesOf (n >>> 8)).length ≤ m := by
        apply ih
        rw [shr8]
        rw [pow_succ] at h
        exact Nat.div_lt_of_lt_mul (by omega)
      simp only [List.length_append, List.length_singleton]
      omega

theorem lengthBytesOf_lt_pow (n : Nat) : n < 256 ^ (lengthBytesOf n).length := by
  induction n using Nat.strong_induction_on with
  | _ n ih =>
    rw [lengthBytesOf_eq]
    split
    · rename_i hn; simp [hn]
    · rename_i hn
      rw [shr8]
      have h1 := ih (n >>> 8) (by rw [shr8]; omega)
      rw [shr8] at h1
      simp only [List.length_append, List.length_singleton]
      rw [pow_succ]
      have : n / 256 + 1 ≤ 256 ^ (lengthBytesOf (n / 256)).length := h1
      have h2 : n < (n / 256 + 1) * 256 := by omega
      calc n < (n / 256 + 1) * 256 := h2
        _ ≤ 256 ^ (lengthBytesOf (n / 256)).length * 256 := by
            exact Nat.mul_le_mul_right 256 this

theorem lengthBytesOf_min {n : Nat} (hn : n ≠ 0) :
    256 ^ ((lengthBytesOf n).length - 1) ≤ n := by
  induction n using Nat.strong_induction_on with
  | _ n ih =>
    rw [lengthBytesOf_eq, if_neg hn]
    simp only [List.length_append, List.length_singleton]
    by_cases h0 : n >>> 8 = 0
    · rw [h0]
      simp [lengthBytesOf_eq]
      omega
    · rw [shr8]
      have h1 := ih (n >>> 8) (by rw [shr8]; omega) h0
      rw [shr8] at h1
      have h2 : (lengthBytesOf (n / 256)).length ≥ 1 := by
        rw [shr8] at h0
        rw [lengthBytesOf_eq, if_neg h0]
        simp
      have h3 : 256 ^ ((lengthBytesOf (n / 256)).length + 1 - 1)
          = 256 ^ ((lengthBytesOf (n / 256)).length - 1) * 256 := by
        rw [← pow_succ]
        congr 1
        omega
      rw [h3]
      calc 256 ^ ((lengthBytesOf (n / 256)).length - 1) * 256 ≤ (n / 256) * 256 :=
            Nat.mul_le_mul_right 256 h1
        _ ≤ n := by omega

theorem decodeLength_cons (b : Nat) (rest : List Nat) :
    decodeLength (b :: rest) =
      if b < 128 then .ok (b, rest)
      else if rest.length < (b &&& 127) then .error "length is incomplete"
      else .ok ((rest.take (b &&& 127)).foldl (fun acc x => ((acc <<< 8) ||| x) % 2 ^ 64) 0,
        rest.drop (b &&& 127)) := rfl

/-- Wrapping the accumulator at every step is the same as wrapping the
unbounded fold once at the end: the step is linear in the accumulator, so
congruence modulo `2^64` is preserved. -/
theorem foldl_wrap_mod : ∀ (bs : List Nat), (∀ x ∈ bs, x < 256) → ∀ (a : Nat),
    bs.foldl (fun acc x => ((acc <<< 8) ||| x) % 2 ^ 64) (a % 2 ^ 64) =
      (bs.foldl (fun acc x => (acc <<< 8) ||| x) a) % 2 ^ 64
  | [], _, a => by simp
  | b :: rest, h, a => by
    simp only [List.foldl_cons]
    have hb : b < 256 := h b (by simp)
    have h1 : ((a % 2 ^ 64) <<< 8) ||| b = (a % 2 ^ 64) * 256 + b := shl8_lor _ hb
    have h2 : (a <<< 8) ||| b = a * 256 + b := shl8_lor a hb
    have h3 : ((a % 2 ^ 64) * 256 + b) % 2 ^ 64 = (a * 256 + b) % 2 ^ 64 := by
      conv_rhs => rw [← Nat.mod_add_div a (2 ^ 64)]
      rw [Nat.add_mul, Nat.add_right_comm, Nat.mul_assoc, Nat.add_mul_mod_self_left]
    rw [h1, h2, h3, ← foldl_wrap_mod rest (fun x hx => h x (by simp [hx])) (a * 256 + b)]

/-- Reading back an encoded length yields the length and leaves the suffix
untouched (within the reach of Go's `int`, whose values never fill nine
bytes, so the accumulator never wraps). -/
theorem decodeLength_encodeLength {n : Nat} (hn : n < 2 ^ 63) (rest : List Nat) :
    decodeLength (encodeLength n ++ rest) = .ok (n, rest) := by
  unfold encodeLength
  split
  · rename_i h
    rw [List.cons_append, decodeLength_cons, if_pos h, List.nil_append]
  · rename_i h
    have hk : (lengthBytesOf n).length ≤ 8 := by
      apply lengthBytesOf_length_le
      calc n < 2 ^ 63 := hn
        _ < 256 ^ 8 := by norm_num
    have hlead : 128 ||| (lengthBytesOf n).length = 128 + (lengthBytesOf n).length :=
      lor128 (by omega)
    rw [List.cons_append, decodeLength_cons, hlead]
    rw [if_neg (by omega)]
    have hmask : (128 + (lengthBytesOf n).length) &&& 127 = (lengthBytesOf n).length := by
      rw [and127]
      omega
    rw [hmask]
    rw [if_neg (by simp)]
    rw [List.take_left, List.drop_left]
    have h0 : (0 : Nat) = 0 % 2 ^ 64 := by norm_num
    rw [h0, foldl_wrap_mod _ (lengthBytesOf_lt n), lengthBytesOf_foldl]
    rw [Nat.mod_eq_of_lt (by calc n < 2 ^ 63 := hn
      _ < 2 ^ 64 := by norm_num)]

/-- A long-form lead byte announcing more bytes than remain makes
`decodeLength` fail. -/
theorem decodeLength_incomplete {b : Nat} (hb : ¬(b < 128)) {rest : List Nat}
    (h : rest.length < (b &&& 127)) :
    decodeLength (b :: rest) = .error "length is incomplete" := by
  rw [decodeLength_cons, if_neg hb, if_pos h]

/-- Encoded lengths are genuine bytes (within Go's `int`). -/
theorem encodeLength_bytes_lt {n : Nat} (hn : n < 2 ^ 63) :
    ∀ x ∈ encodeLength n, x < 256 := by
  unfold encodeLength
  split
  · rename_i h
    intro x hx
    simp only [List.mem_singleton] at hx
    omega
  · rename_i h
    intro x hx
    rcases List.mem_cons.mp hx with rfl | hx
    · have hk : (lengthBytesOf n).length ≤ 8 := by
        apply lengthBytesOf_length_le
        calc n < 2 ^ 63 := hn
          _ < 256 ^ 8 := by norm_num
      rw [lor128 (by omega)]
      omega
    · exact lengthBytesOf_lt n x hx

/-- A value below `256^k` fits in `k` accumulator steps: the bound used to
compare a decoded length field against the minimal form. -/
theorem foldl_shift_lt : ∀ (bs : List Nat), (∀ x ∈ bs, x < 256) → ∀ (a : Nat),
    bs.foldl (fun acc x => (acc <<< 8) ||| x) a < (a + 1) * 256 ^ bs.length
  | [], _, a => by simp
  | b :: rest, h, a => by
    simp only [List.foldl_cons]
    have hb : b < 256 := h b (by simp)
    have hrec := foldl_shift_lt rest (fun x hx => h x (by simp [hx])) ((a <<< 8) ||| b)
    have hstep : (a <<< 8) ||| b = a * 256 + b := shl8_lor a hb
    rw [hstep]
    simp only [List.length_cons]
    rw [hstep] at hrec
    calc rest.foldl (fun acc x => (acc <<< 8) ||| x) (a * 256 + b)
        < (a * 256 + b + 1) * 256 ^ rest.length := hrec
      _ ≤ (a + 1) * 256 ^ (rest.length + 1) := by
          rw [pow_succ]
          have : a * 256 + b + 1 ≤ (a + 1) * 256 := by omega
          calc (a * 256 + b + 1) * 256 ^ rest.length ≤ ((a + 1) * 256) * 256 ^ rest.length :=
                Nat.mul_le_mul_right _ this
            _ = (a + 1) * (256 ^ rest.length * 256) := by ring
            _ = (a + 1) * (256 ^ (rest.length + 1)) := by rw [pow_succ]

/-! ### The node model (tlv.go `type TLV struct`) -/

/-- Go `TLV`: a tag in hex text, a leaf payload, an ordered child list. -/
inductive TLV where
  | mk (Tag : String) (Value : List Nat) (TLVs : List TLV)

/-- Field `Tag` of a `TLV`. -/
def TLV.Tag : TLV → String
  | ⟨t, _, _⟩ => t

/-- Field `Value` of a `TLV`. -/
def TLV.Value : TLV → List Nat
  | ⟨_, v, _⟩ => v

/-- Field `TLVs` of a `TLV`. -/
def TLV.TLVs : TLV → List TLV
  | ⟨_, _, c⟩ => c

/-- Go `NewTag`. -/
def NewTag (tag : String) (value : List Nat) : TLV :=
  ⟨tag, value, []⟩

/-- Go `NewComposite`. -/
def NewComposite (tag : String) (tlvs : List TLV) : TLV :=
  ⟨tag, [], tlvs⟩

/-! ### The codec (tlv.go `Encode` / `Decode`) -/

/-- Go `Encode`.  Per node: hex-decode the tag text, validate its shape, then
use the recursively encoded children as the value when the child list is
non-empty (requiring the constructed bit) and the literal `Value` otherwise;
emit tag, encoded length, value.  Error text for the hex-decode failure is
abbreviated (Go formats the whole struct into it). -/
def Encode : List TLV → Except String (List Nat)
  | [] => .ok []
  | ⟨tg, v, children⟩ :: rest =>
    match hexDecode tg.data with
    | none => .error ("encoding tag " ++ tg)
    | some tag =>
      match validateTag tag with
      | .error e => .error ("validating tag " ++ tg ++ ": " ++ e)
      | .ok _ =>
        match (if children.length > 0 then
                 (if !isConstructed tag then
                    .error ("tag " ++ tg ++ " is not constructed/composite")
                  else
                    match Encode children with
                    | .error e => .error ("encoding composite " ++ tg ++ ": " ++ e)
                    | .ok ev => .ok ev)
               else .ok v : Except String (List Nat)) with
        | .error e => .error e
        | .ok value =>
          match Encode rest with
          | .error e => .error e
          | .ok encodedRest => .ok (tag ++ encodeLength value.length ++ value ++ encodedRest)

/-- `r` is shorter than what `decodeTag` consumed it from. -/
theorem tagCont_length {l t r : List Nat} (h : tagCont l = some (t, r)) :
    r.length < l.length := by
  induction l generalizing t r with
  | nil => simp [tagCont] at h
  | cons c rest ih =>
    simp only [tagCont] at h
    split at h
    · cases hr : tagCont rest with
      | none => rw [hr] at h; exact absurd h (by simp)
      | some p =>
        rw [hr] at h
        cases p with
        | mk t0 r0 =>
          simp only [Option.some.injEq, Prod.mk.injEq] at h
          obtain ⟨-, h2'⟩ := h
          subst h2'
          have := ih hr
          simp only [List.length_cons]
          omega
    · simp only [Option.some.injEq, Prod.mk.injEq] at h
      simp [← h.2]

/-- `decodeTag` consumes at least one byte. -/
theorem decodeTag_length {data t r : List Nat} (h : decodeTag data = .ok (t, r)) :
    r.length < data.length := by
  cases data with
  | nil => simp [decodeTag] at h
  | cons b rest =>
    simp only [decodeTag] at h
    split at h
    · cases hc : tagCont rest with
      | none => rw [hc] at h; exact absurd h (by simp)
      | some p =>
        rw [hc] at h
        cases p with
        | mk t0 r0 =>
          simp only [Except.ok.injEq, Prod.mk.injEq] at h
          obtain ⟨-, h2'⟩ := h
          subst h2'
          have := tagCont_length hc
          simp only [List.length_cons]
          omega
    · simp only [Except.ok.injEq, Prod.mk.injEq] at h
      simp [← h.2]

/-- `decodeLength` consumes at least one byte. -/
theorem decodeLength_length {data : List Nat} {n : Nat} {r : List Nat}
    (h : decodeLength data = .ok (n, r)) : r.length < data.length := by
  cases data with
  | nil => simp [decodeLength] at h
  | cons b rest =>
    simp only [decodeLength] at h
    split at h
    · simp only [Except.ok.injEq, Prod.mk.injEq] at h
      simp [← h.2]
    · split at h
      · exact absurd h (by simp)
      · simp only [Except.ok.injEq, Prod.mk.injEq] at h
        simp only [← h.2, List.length_drop, List.length_cons]
        omega

/-- Go `Decode`.  Reads records while bytes remain: tag, the padding skip for
a `0x00` tag byte, length, the bound check, then the value slice — decoded
recursively under a constructed tag, stored verbatim otherwise.

The bound check `len(data) < length` compares two signed 64-bit ints.  The
left side is a genuine slice length, never negative, so on the unsigned
pattern `decodeLength` returns the check reads: error exactly when `length`
is non-negative as an `int` (below `2^63`) and exceeds the remaining bytes.
A `length` whose sign bit is set (at least `2^63`, from a wrapped length
field) passes the check — it is negative — and the slice expression
`data[:length]` that follows panics; the panic is modelled as a distinguished
error, the only non-value outcome an `Except` embedding has. -/
def Decode (data : List Nat) : Except String (List TLV) :=
  match data with
  | [] => .ok []
  | b :: bs =>
    match h1 : decodeTag (b :: bs) with
    | .error e => .error ("reading tag: " ++ e)
    | .ok (tag, rest) =>
      if tag.headD 0 == 0 then
        Decode rest
      else
        match h2 : decodeLength rest with
        | .error e => .error ("reading length for tag " ++ upperHex tag ++ ": " ++ e)
        | .ok (length, rest2) =>
          if rest2.length < length ∧ length < 2 ^ 63 then
            .error ("insufficient data for expected length " ++ toString length)
          else if 2 ^ 63 ≤ length then
            .error "panic: runtime error: slice bounds out of range"
          else
            if isConstructed tag then
              match Decode (rest2.take length) with
              | .error e => .error ("decoding composite: " ++ e)
              | .ok decoded =>
                match Decode (rest2.drop length) with
                | .error e => .error e
                | .ok tlvs => .ok (⟨upperHex tag, [], decoded⟩ :: tlvs)
            else
              match Decode (rest2.drop length) with
              | .error e => .error e
              | .ok tlvs => .ok (⟨upperHex tag, rest2.take length, []⟩ :: tlvs)
termination_by data.length
decreasing_by
  all_goals have hta := decodeTag_length h1
  · exact hta
  all_goals have hlb := decodeLength_length h2
  all_goals simp only [List.length_take, List.length_drop, List.length_cons] at *
  all_goals omega


/-! ### How `Decode` behaves, step by step -/

theorem Decode_nil : Decode [] = .ok [] := by simp [Decode]

theorem Decode_pad (rest : List Nat) : Decode (0 :: rest) = Decode rest := by
  rw [Decode]
  have hdt : decodeTag (0 :: rest) = .ok ([0], rest) := by
    simp [decodeTag, isMultiByte_cons, and31]
  split
  · rename_i e heq
    rw [hdt] at heq
    simp at heq
  · rename_i tg r heq
    rw [hdt] at heq
    simp only [Except.ok.injEq, Prod.mk.injEq] at heq
    obtain ⟨rfl, rfl⟩ : [0] = tg ∧ rest = r := ⟨heq.1, heq.2⟩
    simp

/-- Decoding one well-formed record followed by anything: the record's tag and
minimal length field are read back, its value is sliced off whole, and the
loop continues on the tail. -/
theorem Decode_cons {tag : List Nat} (hval : validateTag tag = .ok ())
    (hnz : tag.headD 0 ≠ 0) {value : List Nat} (hlen : value.length < 2 ^ 63) (tail : List Nat) :
    Decode (tag ++ encodeLength value.length ++ value ++ tail) =
      if isConstructed tag then
        match Decode value with
        | .error e => .error ("decoding composite: " ++ e)
        | .ok decoded =>
          match Decode tail with
          | .error e => .error e
          | .ok tlvs => .ok (⟨upperHex tag, [], decoded⟩ :: tlvs)
      else
        match Decode tail with
        | .error e => .error e
        | .ok tlvs => .ok (⟨upperHex tag, value, []⟩ :: tlvs) := by
  cases tag with
  | nil => simp [validateTag] at hval
  | cons t0 t1 =>
    have hdt : decodeTag ((t0 :: t1) ++ (encodeLength value.length ++ (value ++ tail)))
        = .ok (t0 :: t1, encodeLength value.length ++ (value ++ tail)) :=
      decodeTag_append hval _
    have hdl : decodeLength (encodeLength value.length ++ (value ++ tail))
        = .ok (value.length, value ++ tail) :=
      decodeLength_encodeLength hlen _
    simp only [List.append_assoc, List.cons_append] at hdt hdl ⊢
    rw [Decode]
    split
    · rename_i e heq
      rw [hdt] at heq
      simp at heq
    · rename_i tg r heq
      rw [hdt] at heq
      simp only [Except.ok.injEq, Prod.mk.injEq] at heq
      obtain ⟨rfl, rfl⟩ : t0 :: t1 = tg ∧ encodeLength value.length ++ (value ++ tail) = r :=
        ⟨heq.1, heq.2⟩
      rw [if_neg (by simpa using hnz)]
      split
      · rename_i e heq2
        rw [hdl] at heq2
        simp at heq2
      · rename_i len r2 heq2
        rw [hdl] at heq2
        simp only [Except.ok.injEq, Prod.mk.injEq] at heq2
        obtain ⟨rfl, rfl⟩ : value.length = len ∧ value ++ tail = r2 := ⟨heq2.1, heq2.2⟩
        rw [if_neg (fun hc => absurd hc.1 (by simp)), if_neg (by omega)]
        rw [List.take_left, List.drop_left]

/-- What one loop iteration of `Decode` does once tag and length have been
read successfully and the bound check has passed. -/
theorem Decode_step {data tag rest : List Nat} (hdt : decodeTag data = .ok (tag, rest))
    (hnz : tag.headD 0 ≠ 0) {n : Nat} {rest2 : List Nat}
    (hdl : decodeLength rest = .ok (n, rest2)) (hle : ¬(rest2.length < n))
    (hbound : n < 2 ^ 63) :
    Decode data =
      if isConstructed tag then
        match Decode (rest2.take n) with
        | .error e => .error ("decoding composite: " ++ e)
        | .ok decoded =>
          match Decode (rest2.drop n) with
          | .error e => .error e
          | .ok tlvs => .ok (⟨upperHex tag, [], decoded⟩ :: tlvs)
      else
        match Decode (rest2.drop n) with
        | .error e => .error e
        | .ok tlvs => .ok (⟨upperHex tag, rest2.take n, []⟩ :: tlvs) := by
  cases data with
  | nil => simp [decodeTag] at hdt
  | cons b bs =>
    rw [Decode]
    split
    · rename_i e heq
      rw [hdt] at heq
      simp at heq
    · rename_i tg r heq
      rw [hdt] at heq
      simp only [Except.ok.injEq, Prod.mk.injEq] at heq
      obtain ⟨rfl, rfl⟩ : tag = tg ∧ rest = r := ⟨heq.1, heq.2⟩
      rw [if_neg (by simpa using hnz)]
      split
      · rename_i e heq2
        rw [hdl] at heq2
        simp at heq2
      · rename_i len r2 heq2
        rw [hdl] at heq2
        simp only [Except.ok.injEq, Prod.mk.injEq] at heq2
        obtain ⟨rfl, rfl⟩ : n = len ∧ rest2 = r2 := ⟨heq2.1, heq2.2⟩
        rw [if_neg (fun hc => hle hc.1), if_neg (by omega)]

/-- A tag-reading failure aborts the whole call. -/
theorem Decode_tagError {data : List Nat} (hne : data ≠ []) {e : String}
    (hdt : decodeTag data = .error e) :
    Decode data = .error ("reading tag: " ++ e) := by
  cases data with
  | nil => exact absurd rfl hne
  | cons b bs =>
    rw [Decode]
    split
    · rename_i e2 heq
      rw [hdt] at heq
      simp only [Except.error.injEq] at heq
      rw [heq]
    · rename_i tg r heq
      rw [hdt] at heq
      simp at heq

/-- A length-reading failure aborts the whole call, with the offending tag
named in the wrap. -/
theorem Decode_lengthError {data tag rest : List Nat}
    (hdt : decodeTag data = .ok (tag, rest)) (hnz : tag.headD 0 ≠ 0) {e : String}
    (hdl : decodeLength rest = .error e) :
    Decode data = .error ("reading length for tag " ++ upperHex tag ++ ": " ++ e) := by
  cases data with
  | nil => simp [decodeTag] at hdt
  | cons b bs =>
    rw [Decode]
    split
    · rename_i e2 heq
      rw [hdt] at heq
      simp at heq
    · rename_i tg r heq
      rw [hdt] at heq
      simp only [Except.ok.injEq, Prod.mk.injEq] at heq
      obtain ⟨rfl, rfl⟩ : tag = tg ∧ rest = r := ⟨heq.1, heq.2⟩
      rw [if_neg (by simpa using hnz)]
      split
      · rename_i e2 heq2
        rw [hdl] at heq2
        simp only [Except.error.injEq] at heq2
        rw [heq2]
      · rename_i len r2 heq2
        rw [hdl] at heq2
        simp at heq2

/-- A declared length exceeding the remaining bytes (and non-negative as a
Go `int`) aborts the whole call; the error names the expected length (not
the tag). -/
theorem Decode_insufficient {data tag rest : List Nat}
    (hdt : decodeTag data = .ok (tag, rest)) (hnz : tag.headD 0 ≠ 0) {n : Nat}
    {rest2 : List Nat} (hdl : decodeLength rest = .ok (n, rest2))
    (hlt : rest2.length < n) (hbound : n < 2 ^ 63) :
    Decode data = .error ("insufficient data for expected length " ++ toString n) := by
  cases data with
  | nil => simp [decodeTag] at hdt
  | cons b bs =>
    rw [Decode]
    split
    · rename_i e heq
      rw [hdt] at heq
      simp at heq
    · rename_i tg r heq
      rw [hdt] at heq
      simp only [Except.ok.injEq, Prod.mk.injEq] at heq
      obtain ⟨rfl, rfl⟩ : tag = tg ∧ rest = r := ⟨heq.1, heq.2⟩
      rw [if_neg (by simpa using hnz)]
      split
      · rename_i e heq2
        rw [hdl] at heq2
        simp at heq2
      · rename_i len r2 heq2
        rw [hdl] at heq2
        simp only [Except.ok.injEq, Prod.mk.injEq] at heq2
        obtain ⟨rfl, rfl⟩ : n = len ∧ rest2 = r2 := ⟨heq2.1, heq2.2⟩
        rw [if_pos ⟨hlt, hbound⟩]

/-- A decoded length whose sign bit is set — a wrapped length field —
escapes the bound check and makes the value slice panic. -/
theorem Decode_panic {data tag rest : List Nat}
    (hdt : decodeTag data = .ok (tag, rest)) (hnz : tag.headD 0 ≠ 0) {n : Nat}
    {rest2 : List Nat} (hdl : decodeLength rest = .ok (n, rest2))
    (hwrap : 2 ^ 63 ≤ n) :
    Decode data = .error "panic: runtime error: slice bounds out of range" := by
  cases data with
  | nil => simp [decodeTag] at hdt
  | cons b bs =>
    rw [Decode]
    split
    · rename_i e heq
      rw [hdt] at heq
      simp at heq
    · rename_i tg r heq
      rw [hdt] at heq
      simp only [Except.ok.injEq, Prod.mk.injEq] at heq
      obtain ⟨rfl, rfl⟩ : tag = tg ∧ rest = r := ⟨heq.1, heq.2⟩
      rw [if_neg (by simpa using hnz)]
      split
      · rename_i e heq2
        rw [hdl] at heq2
        simp at heq2
      · rename_i len r2 heq2
        rw [hdl] at heq2
        simp only [Except.ok.injEq, Prod.mk.injEq] at heq2
        obtain ⟨rfl, rfl⟩ : n = len ∧ rest2 = r2 := ⟨heq2.1, heq2.2⟩
        rw [if_neg (fun hc => absurd hc.2 (by omega)), if_pos hwrap]

/-- A byte string is canonical when the traversal `Decode` performs meets no
padding byte and every length field is the minimal (re-encoded) form; on
strings `Decode` rejects the value is irrelevant and `false` is returned.
Spec-side: this is the condition under which decoding loses nothing. -/
def canonicalBytes (data : List Nat) : Bool :=
  match data with
  | [] => true
  | b :: bs =>
    match h1 : decodeTag (b :: bs) with
    | .error _ => false
    | .ok (tag, rest) =>
      if tag.headD 0 == 0 then false
      else
        match h2 : decodeLength rest with
        | .error _ => false
        | .ok (length, rest2) =>
          if rest2.length < length then false
          else
            (rest == encodeLength length ++ rest2) &&
            (if isConstructed tag then canonicalBytes (rest2.take length) else true) &&
            canonicalBytes (rest2.drop length)
termination_by data.length
decreasing_by
  all_goals have hta := decodeTag_length h1
  all_goals have hlb := decodeLength_length h2
  all_goals simp only [List.length_take, List.length_drop, List.length_cons] at *
  all_goals omega

/-! ### Lookup (tlv.go `FindTagByPath`, `FindFirstTag`) -/

/-- Go `strings.Cut(path, ".")`: the text before the first dot and the text
after it (all of `cs` and `[]` when there is no dot). -/
def cutDot : List Char → List Char × List Char
  | [] => ([], [])
  | c :: rest =>
    if c == '.' then ([], rest)
    else
      match cutDot rest with
      | (before, after) => (c :: before, after)

/-- Children weigh less than the node carrying them. -/
theorem TLV.sizeOf_TLVs_lt (t : TLV) : sizeOf t.TLVs < sizeOf t := by
  cases t with
  | mk tg v c =>
    simp only [TLV.TLVs, TLV.mk.sizeOf_spec]
    omega

mutual

/-- Go `FindTagByPath`: cut the first segment off the path and scan the
current level with it. -/
def FindTagByPath (tlvs : List TLV) (path : String) : Option TLV :=
  match cutDot path.data with
  | (tag, rest) => findInLevel tlvs (String.mk tag) (String.mk rest)
termination_by 2 * sizeOf tlvs + 1
decreasing_by
  omega

/-- The loop inside Go `FindTagByPath`: on a tag match, return the node when
the remaining path is empty, descend when the node has children, and
otherwise keep scanning the level. -/
def findInLevel (tlvs : List TLV) (tag path : String) : Option TLV :=
  match tlvs with
  | [] => none
  | tlv :: rest =>
    if tlv.Tag == tag then
      if path == "" then some tlv
      else if tlv.TLVs.length > 0 then FindTagByPath tlv.TLVs path
      else findInLevel rest tag path
    else findInLevel rest tag path
termination_by 2 * sizeOf tlvs
decreasing_by
  all_goals have := TLV.sizeOf_TLVs_lt tlv
  all_goals simp only [List.cons.sizeOf_spec]
  all_goals omega

end

/-- Go `FindFirstTag`: scan the level; on a tag match return the node, and at
the first node with children return the result of searching them — the
remaining part of the level is not visited in that case. -/
def FindFirstTag (tlvs : List TLV) (tag : String) : Option TLV :=
  match tlvs with
  | [] => none
  | tlv :: rest =>
    if tlv.Tag == tag then some tlv
    else if tlv.TLVs.length > 0 then FindFirstTag tlv.TLVs tag
    else FindFirstTag rest tag
termination_by sizeOf tlvs
decreasing_by
  all_goals have := TLV.sizeOf_TLVs_lt tlv
  all_goals simp only [List.cons.sizeOf_spec]
  all_goals omega

/-! ### The flattened multi-map (optimization.go) -/

/-- Go `flattenTags`: walk the nodes in order, appending each to its tag's
list before walking its children.  The Go `map[string][]TLV` is modelled as a
total function defaulting to `[]` (a key is present exactly when its list is
non-empty, since the builder only ever appends). -/
def flattenTags : List TLV → (String → List TLV) → (String → List TLV)
  | [], m => m
  | tlv :: rest, m =>
    let m1 : String → List TLV := fun k => if k == tlv.Tag then m tlv.Tag ++ [tlv] else m k
    let m2 := if tlv.TLVs.length > 0 then flattenTags tlv.TLVs m1 else m1
    flattenTags rest m2
termination_by tlvs => sizeOf tlvs
decreasing_by
  all_goals have := TLV.sizeOf_TLVs_lt tlv
  all_goals simp only [List.cons.sizeOf_spec]
  all_goals omega

/-- Go `BuildTagMap` (the size estimation pass only sizes the Go map and has
no observable effect). -/
def BuildTagMap (tlvs : List TLV) : String → List TLV :=
  flattenTags tlvs (fun _ => [])

/-- Go `FindFirst`: the first instance under the tag, if any. -/
def FindFirst (tagMap : String → List TLV) (tag : String) : Option TLV :=
  match tagMap tag with
  | [] => none
  | t :: _ => some t

/-- Go `Find`: all instances under the tag, with the found flag
`found && len(instances) > 0`. -/
def Find (tagMap : String → List TLV) (tag : String) : List TLV × Bool :=
  (tagMap tag, !(tagMap tag).isEmpty)

/-! ### Spec-side descriptions of the lookups -/

/-- Spec-side: the depth-first pre-order listing of every node of the tree. -/
def preorder : List TLV → List TLV
  | [] => []
  | tlv :: rest => tlv :: (preorder tlv.TLVs ++ preorder rest)
termination_by tlvs => sizeOf tlvs
decreasing_by
  all_goals have := TLV.sizeOf_TLVs_lt tlv
  all_goals simp only [List.cons.sizeOf_spec]
  all_goals omega

/-- Spec-side: the first node of the whole tree, in depth-first pre-order,
bearing the tag — the claimed behaviour of `FindFirstTag`. -/
def specFindFirstTag (tlvs : List TLV) (tag : String) : Option TLV :=
  (preorder tlvs).find? (fun t => t.Tag == tag)

/-- What `cutDot` leaves after the dot is shorter than its input (or empty,
when there was no dot). -/
theorem cutDot_after_length {cs before after : List Char}
    (h : cutDot cs = (before, after)) : after = [] ∨ after.length < cs.length := by
  induction cs generalizing before after with
  | nil => simp [cutDot] at h; simp [← h.2]
  | cons c rest ih =>
    simp only [cutDot] at h
    split at h
    · simp only [Prod.mk.injEq] at h
      simp [← h.2]
    · cases hc : cutDot rest with
      | mk b0 a0 =>
        rw [hc] at h
        simp only [Prod.mk.injEq] at h
        obtain ⟨-, h2'⟩ := h
        subst h2'
        rcases ih hc with h | h
        · exact Or.inl h
        · right; simp only [List.length_cons]; omega

/-- Spec-side: the dot-separated path as a list of segments, mirroring the
iterated `strings.Cut`: a trailing empty remainder ends the path. -/
def splitPath (s : String) : List String :=
  match h : cutDot s.data with
  | (seg, rest) =>
    if rest.isEmpty then [String.mk seg]
    else String.mk seg :: splitPath (String.mk rest)
termination_by s.data.length
decreasing_by
  rcases cutDot_after_length h with he | hlt
  · subst he; simp_all
  · exact hlt

/-- Spec-side: descend the tree one segment per level; a terminal segment
selects the first sibling bearing it, a non-terminal segment selects the
first sibling bearing it that has children and resolves the remaining
segments against those children. -/
def pathFind : List TLV → List String → Option TLV
  | _, [] => none
  | tlvs, [seg] => tlvs.find? (fun t => t.Tag == seg)
  | tlvs, seg :: seg2 :: restSegs =>
    match tlvs.find? (fun t => t.Tag == seg && !t.TLVs.isEmpty) with
    | some t => pathFind t.TLVs (seg2 :: restSegs)
    | none => none

/-! ### Well-formedness of input trees -/

mutual

/-- The well-formedness the round-trip claim quantifies over, verbatim: each
tag text hex-decodes to shape-valid tag bytes, and children appear only under
a tag with the constructed bit. -/
def claimWellFormed (t : TLV) : Bool :=
  match t with
  | ⟨tg, v, children⟩ =>
    match hexDecode tg.data with
    | none => false
    | some tag =>
      (match validateTag tag with | .ok _ => true | .error _ => false) &&
      (claimWellFormedList children) &&
      (children.isEmpty || isConstructed tag)
termination_by sizeOf t
decreasing_by
  simp only [TLV.mk.sizeOf_spec]
  omega

/-- `claimWellFormed` on every member of a list. -/
def claimWellFormedList (tlvs : List TLV) : Bool :=
  match tlvs with
  | [] => true
  | t :: rest => claimWellFormed t && claimWellFormedList rest
termination_by sizeOf tlvs
decreasing_by
  all_goals simp only [List.cons.sizeOf_spec]
  all_goals omega

end

mutual

/-- The amended well-formedness under which the round trip holds: the tag
also must not be the padding byte `0x00`, a constructed node carries no
direct value, and a primitive node carries no children. -/
def wellFormed (t : TLV) : Bool :=
  match t with
  | ⟨tg, v, children⟩ =>
    match hexDecode tg.data with
    | none => false
    | some tag =>
      (match validateTag tag with | .ok _ => true | .error _ => false) &&
      (tag.headD 0 != 0) &&
      (if isConstructed tag then v.isEmpty && wellFormedList children
       else children.isEmpty)
termination_by sizeOf t
decreasing_by
  simp only [TLV.mk.sizeOf_spec]
  omega

/-- `wellFormed` on every member of a list. -/
def wellFormedList (tlvs : List TLV) : Bool :=
  match tlvs with
  | [] => true
  | t :: rest => wellFormed t && wellFormedList rest
termination_by sizeOf tlvs
decreasing_by
  all_goals simp only [List.cons.sizeOf_spec]
  all_goals omega

end

/-- Tag text normalized to uppercase, at every node of the tree: what the
round-trip claim says `Decode ∘ Encode` returns. -/
def toUpperTags : List TLV → List TLV
  | [] => []
  | ⟨tg, v, children⟩ :: rest => ⟨toUpperString tg, v, toUpperTags children⟩ :: toUpperTags rest
termination_by tlvs => sizeOf tlvs
decreasing_by
  all_goals simp only [List.cons.sizeOf_spec, TLV.mk.sizeOf_spec]
  all_goals omega


/-! ### The encode-then-decode round trip -/

theorem stringData_ext {s t : String} (h : s.data = t.data) : s = t := by
  cases s
  cases t
  congr 1

theorem wellFormedList_nil : wellFormedList [] = true := by rw [wellFormedList]

theorem wellFormedList_cons (t : TLV) (rest : List TLV) :
    wellFormedList (t :: rest) = (wellFormed t && wellFormedList rest) := by
  rw [wellFormedList]

theorem Encode_nil : Encode [] = .ok [] := by simp [Encode]

theorem toUpperTags_nil : toUpperTags [] = [] := by simp [toUpperTags]

theorem toUpperTags_cons (tg : String) (v : List Nat) (c : List TLV) (rest : List TLV) :
    toUpperTags (⟨tg, v, c⟩ :: rest) = ⟨toUpperString tg, v, toUpperTags c⟩ :: toUpperTags rest := by
  simp [toUpperTags]

/-- Encoding a well-formed tree succeeds, and what was encoded decodes back
to the tree with its tag text uppercased, in front of whatever the remaining
input decodes to. -/
theorem decode_encode :
    ∀ (tlvs : List TLV), wellFormedList tlvs = true →
      ∃ out, Encode tlvs = .ok out ∧
        ∀ tail r, out.length < 2 ^ 63 → Decode tail = .ok r →
          Decode (out ++ tail) = .ok (toUpperTags tlvs ++ r)
  | [], _ => ⟨[], Encode_nil, by
      intro tail r hb hr
      simpa [toUpperTags_nil] using hr⟩
  | ⟨tg, v, c⟩ :: rest, hwf => by
    rw [wellFormedList_cons, Bool.and_eq_true] at hwf
    obtain ⟨hwf1, hwfrest⟩ := hwf
    rw [wellFormed] at hwf1
    cases h1 : hexDecode tg.data with
    | none => simp only [h1] at hwf1; simp at hwf1
    | some tagB =>
      simp only [h1] at hwf1
      cases hvt : validateTag tagB with
      | error e => simp only [hvt] at hwf1; simp at hwf1
      | ok u =>
        cases u
        simp only [hvt] at hwf1
        simp only [Bool.and_eq_true, bne_iff_ne, ne_eq] at hwf1
        obtain ⟨⟨-, hnz⟩, hbranch⟩ := hwf1
        obtain ⟨outRest, hencRest, hdecRest⟩ := decode_encode rest hwfrest
        have hupper : upperHex tagB = toUpperString tg :=
          stringData_ext (by
            rw [upperHex_of_hexDecode tg.data tagB h1]
            rfl)
        by_cases hcon : isConstructed tagB
        · rw [if_pos hcon, Bool.and_eq_true, List.isEmpty_iff] at hbranch
          obtain ⟨hv, hwfc⟩ := hbranch
          subst hv
          by_cases hc : c = []
          · subst hc
            refine ⟨tagB ++ encodeLength (List.length ([] : List Nat)) ++ [] ++ outRest, ?_, ?_⟩
            · rw [Encode]
              simp only [h1, hvt]
              rw [if_neg (by simp)]
              simp only [hencRest]
            · intro tail r hb hr
              simp only [List.append_assoc] at hb ⊢
              simp only [List.length_append] at hb
              have hstep := @Decode_cons _ hvt hnz [] (by simp) (outRest ++ tail)
              simp only [List.append_assoc] at hstep
              rw [hstep, if_pos hcon, Decode_nil]
              rw [hdecRest tail r (by omega) hr]
              rw [toUpperTags_cons, hupper, toUpperTags_nil]
              simp
          · have hwfc2 : wellFormedList c = true := hwfc
            obtain ⟨cOut, hencC, hdecC⟩ := decode_encode c hwfc2
            refine ⟨tagB ++ encodeLength cOut.length ++ cOut ++ outRest, ?_, ?_⟩
            · rw [Encode]
              simp only [h1, hvt]
              rw [if_pos (by simp [List.length_pos, hc])]
              rw [if_neg (by simp [hcon])]
              simp only [hencC, hencRest]
            · intro tail r hb hr
              simp only [List.append_assoc] at hb ⊢
              simp only [List.length_append] at hb
              have hdecCnil : Decode cOut = .ok (toUpperTags c) := by
                have := hdecC [] [] (by omega) Decode_nil
                simpa using this
              have hstep := @Decode_cons _ hvt hnz cOut (by omega) (outRest ++ tail)
              simp only [List.append_assoc] at hstep
              rw [hstep, if_pos hcon, hdecCnil]
              rw [hdecRest tail r (by omega) hr]
              rw [toUpperTags_cons, hupper]
              simp
        · rw [if_neg hcon, List.isEmpty_iff] at hbranch
          subst hbranch
          refine ⟨tagB ++ encodeLength v.length ++ v ++ outRest, ?_, ?_⟩
          · rw [Encode]
            simp only [h1, hvt]
            rw [if_neg (by simp)]
            simp only [hencRest]
          · intro tail r hb hr
            simp only [List.append_assoc] at hb ⊢
            simp only [List.length_append] at hb
            have hstep := @Decode_cons _ hvt hnz v (by omega) (outRest ++ tail)
            simp only [List.append_assoc] at hstep
            rw [hstep, if_neg hcon]
            rw [hdecRest tail r (by omega) hr]
            rw [toUpperTags_cons, hupper, toUpperTags_nil]
            simp
termination_by tlvs => sizeOf tlvs
decreasing_by
  all_goals simp only [List.cons.sizeOf_spec, TLV.mk.sizeOf_spec]
  all_goals omega

/-! ### The decode-then-encode round trip -/

/-- Suffix returned by `decodeLength` is made of input bytes. -/
theorem decodeLength_subset {rest : List Nat} {n : Nat} {rest2 : List Nat}
    (h : decodeLength rest = .ok (n, rest2)) : ∀ x ∈ rest2, x ∈ rest := by
  cases rest with
  | nil => simp [decodeLength] at h
  | cons b r =>
    rw [decodeLength_cons] at h
    split at h
    · simp only [Except.ok.injEq, Prod.mk.injEq] at h
      obtain ⟨-, rfl⟩ := h
      intro x hx
      exact List.mem_cons_of_mem b hx
    · split at h
      · simp at h
      · simp only [Except.ok.injEq, Prod.mk.injEq] at h
        obtain ⟨-, rfl⟩ := h
        intro x hx
        exact List.mem_cons_of_mem b (List.drop_subset _ r hx)

/-- The minimal length form is no longer than any accepted length field. -/
theorem decodeLength_minimal {rest : List Nat} (hb : ∀ x ∈ rest, x < 256) {n : Nat}
    {rest2 : List Nat} (h : decodeLength rest = .ok (n, rest2)) :
    (encodeLength n).length + rest2.length ≤ rest.length := by
  cases rest with
  | nil => simp [decodeLength] at h
  | cons b r =>
    rw [decodeLength_cons] at h
    split at h
    · rename_i hlt
      simp only [Except.ok.injEq, Prod.mk.injEq] at h
      obtain ⟨rfl, rfl⟩ := h
      rw [encodeLength, if_pos hlt]
      simp only [List.length_cons, List.length_nil]
      omega
    · rename_i hge
      split at h
      · exact Except.noConfusion h
      · rename_i hk
        simp only [Except.ok.injEq, Prod.mk.injEq] at h
        obtain ⟨rfl, rfl⟩ := h
        have hkle : (b &&& 127) ≤ r.length := by omega
        have htlen : (r.take (b &&& 127)).length = (b &&& 127) := by
          rw [List.length_take]
          omega
        have hfold := foldl_shift_lt (r.take (b &&& 127))
          (fun x hx => hb x (List.mem_cons_of_mem b (List.take_subset _ r hx))) 0
        rw [htlen] at hfold
        have hwrap : (r.take (b &&& 127)).foldl (fun acc x => ((acc <<< 8) ||| x) % 2 ^ 64) 0
            ≤ (r.take (b &&& 127)).foldl (fun acc x => (acc <<< 8) ||| x) 0 := by
          have h0 : (0 : Nat) = 0 % 2 ^ 64 := by norm_num
          conv_lhs => rw [h0]
          rw [foldl_wrap_mod _
            (fun x hx => hb x (List.mem_cons_of_mem b (List.take_subset _ r hx)))]
          exact Nat.mod_le _ _
        have hlb : (lengthBytesOf ((r.take (b &&& 127)).foldl
            (fun acc x => ((acc <<< 8) ||| x) % 2 ^ 64) 0)).length ≤ (b &&& 127) :=
          lengthBytesOf_length_le (lt_of_le_of_lt hwrap (by simpa using hfold))
        rw [encodeLength]
        split
        · simp only [List.length_singleton, List.length_drop, List.length_cons, List.length_nil]
          omega
        · simp only [List.length_cons, List.length_drop]
          omega

/-- Larger values never take fewer length bytes. -/
theorem encodeLength_len_mono {m n : Nat} (h : m ≤ n) :
    (encodeLength m).length ≤ (encodeLength n).length := by
  unfold encodeLength
  split
  · split
    · simp
    · simp
  · rename_i hm
    rw [if_neg (by omega)]
    simp only [List.length_cons, Nat.add_le_add_iff_right]
    exact lengthBytesOf_length_le (lt_of_le_of_lt h (lengthBytesOf_lt_pow n))

/-- A skipped padding byte makes the input non-canonical. -/
theorem canonicalBytes_pad {data tag rest : List Nat}
    (hdt : decodeTag data = .ok (tag, rest)) (hz : tag.headD 0 == 0) :
    canonicalBytes data = false := by
  cases data with
  | nil => simp [decodeTag] at hdt
  | cons b bs =>
    rw [canonicalBytes]
    split
    · rfl
    · rename_i tg r heq
      rw [hdt] at heq
      simp only [Except.ok.injEq, Prod.mk.injEq] at heq
      obtain ⟨rfl, rfl⟩ : tag = tg ∧ rest = r := ⟨heq.1, heq.2⟩
      rw [if_pos hz]

/-- What canonicality means once one record parses: the length field is the
minimal form and the parts are canonical in turn. -/
theorem canonicalBytes_step {data tag rest : List Nat}
    (hdt : decodeTag data = .ok (tag, rest)) (hnz : tag.headD 0 ≠ 0) {n : Nat}
    {rest2 : List Nat} (hdl : decodeLength rest = .ok (n, rest2))
    (hle : ¬(rest2.length < n)) :
    canonicalBytes data =
      ((rest == encodeLength n ++ rest2) &&
       (if isConstructed tag then canonicalBytes (rest2.take n) else true) &&
       canonicalBytes (rest2.drop n)) := by
  cases data with
  | nil => simp [decodeTag] at hdt
  | cons b bs =>
    rw [canonicalBytes]
    split
    · rename_i e heq
      rw [hdt] at heq
      simp at heq
    · rename_i tg r heq
      rw [hdt] at heq
      simp only [Except.ok.injEq, Prod.mk.injEq] at heq
      obtain ⟨rfl, rfl⟩ : tag = tg ∧ rest = r := ⟨heq.1, heq.2⟩
      rw [if_neg (by simpa using hnz)]
      split
      · rename_i e heq2
        rw [hdl] at heq2
        simp at heq2
      · rename_i len r2 heq2
        rw [hdl] at heq2
        simp only [Except.ok.injEq, Prod.mk.injEq] at heq2
        obtain ⟨rfl, rfl⟩ : n = len ∧ rest2 = r2 := ⟨heq2.1, heq2.2⟩
        rw [if_neg hle]

/-- On canonical input, decoding to the empty forest means the input was
empty: nothing (padding included) can vanish. -/
theorem canonical_decode_nil {data : List Nat} (hcan : canonicalBytes data = true)
    (hdec : Decode data = .ok []) : data = [] := by
  cases data with
  | nil => rfl
  | cons b bs =>
    exfalso
    rw [Decode] at hdec
    split at hdec
    · exact Except.noConfusion hdec
    · rename_i tg r heq
      split at hdec
      · rename_i hz
        rw [canonicalBytes_pad heq (by simpa using hz)] at hcan
        exact Bool.noConfusion hcan
      · rename_i hz
        split at hdec
        · exact Except.noConfusion hdec
        · rename_i len r2 heq2
          split at hdec
          · exact Except.noConfusion hdec
          · split at hdec
            · exact Except.noConfusion hdec
            · split at hdec
              · split at hdec
                · exact Except.noConfusion hdec
                · split at hdec
                  · exact Except.noConfusion hdec
                  · simp at hdec
              · split at hdec
                · exact Except.noConfusion hdec
                · simp at hdec

theorem canonicalBytes_nil : canonicalBytes [] = true := by rw [canonicalBytes]

/-- One record in emitted form — a valid non-pad tag, the minimal length
field, the value, then a tail — is canonical when its constructed value
region and the tail are. -/
theorem canonicalBytes_record (tag : List Nat) (hval : validateTag tag = .ok ())
    (hnz : tag.headD 0 ≠ 0) (value : List Nat) (hlen : value.length < 2 ^ 63)
    (tail : List Nat) (hv : isConstructed tag = true → canonicalBytes value = true)
    (ht : canonicalBytes tail = true) :
    canonicalBytes (tag ++ encodeLength value.length ++ value ++ tail) = true := by
  have hdt : decodeTag (tag ++ (encodeLength value.length ++ (value ++ tail)))
      = .ok (tag, encodeLength value.length ++ (value ++ tail)) := decodeTag_append hval _
  have hdl : decodeLength (encodeLength value.length ++ (value ++ tail))
      = .ok (value.length, value ++ tail) := decodeLength_encodeLength hlen _
  have hle : ¬((value ++ tail).length < value.length) := by simp
  simp only [List.append_assoc]
  rw [canonicalBytes_step hdt hnz hdl hle]
  rw [List.take_left, List.drop_left]
  cases hcon : isConstructed tag with
  | false => simp [hcon, ht]
  | true => simp [hcon, hv hcon, ht]

/-- What `Decode` accepts re-encodes: the tree is encodable, no longer than
the input, decodes back to itself, the re-encoding is itself canonical, and
it reproduces the input bytes exactly when — and only when — the input was
canonical. -/
theorem encode_decode :
    ∀ (data : List Nat), (∀ x ∈ data, x < 256) → data.length < 2 ^ 63 →
      ∀ l, Decode data = .ok l →
      ∃ out, Encode l = .ok out ∧ out.length ≤ data.length ∧ Decode out = .ok l ∧
        canonicalBytes out = true ∧ (canonicalBytes data = true ↔ out = data)
  | [], _, _, l, hdec => by
    rw [Decode_nil] at hdec
    obtain rfl : ([] : List TLV) = l := by simpa using hdec
    exact ⟨[], Encode_nil, by simp, Decode_nil, canonicalBytes_nil,
      iff_of_true canonicalBytes_nil rfl⟩
  | b :: bs, hb, hlen, l, hdec => by
    rw [Decode] at hdec
    split at hdec
    · exact Except.noConfusion hdec
    · rename_i tg r heq
      obtain ⟨hdata, hvt⟩ := decodeTag_structure heq
      have hrsub : ∀ x ∈ r, x ∈ b :: bs := by
        rw [hdata]; intro x hx; exact List.mem_append_right _ hx
      have hrlen : r.length < (b :: bs).length := decodeTag_length heq
      split at hdec
      · rename_i hz
        obtain ⟨out, henc, hole, hdecout, hcanout, hiff⟩ :=
          encode_decode r (fun x hx => hb x (hrsub x hx)) (by omega) l hdec
        refine ⟨out, henc, by omega, hdecout, hcanout, iff_of_false ?_ ?_⟩
        · intro hc
          rw [canonicalBytes_pad heq (by simpa using hz)] at hc
          exact Bool.noConfusion hc
        · intro hout
          have hl2 := congrArg List.length hout
          simp only [List.length_cons] at hl2 hrlen
          omega
      · rename_i hz
        have hnz : tg.headD 0 ≠ 0 := by simpa using hz
        split at hdec
        · exact Except.noConfusion hdec
        · rename_i len r2 heq2
          split at hdec
          · exact Except.noConfusion hdec
          · rename_i hle0
            have hpan : ¬(2 ^ 63 ≤ len) := by
              intro hwrap
              rw [if_pos hwrap] at hdec
              exact Except.noConfusion hdec
            rw [if_neg hpan] at hdec
            have hle : ¬(r2.length < len) := fun h => hle0 ⟨h, by omega⟩
            have hr2sub : ∀ x ∈ r2, x ∈ b :: bs := by
              intro x hx
              exact hrsub _ (decodeLength_subset heq2 x hx)
            have hr2len : r2.length < r.length := decodeLength_length heq2
            have htksub : ∀ x ∈ r2.take len, x ∈ b :: bs :=
              fun x hx => hr2sub x (List.take_subset _ _ hx)
            have hdpsub : ∀ x ∈ r2.drop len, x ∈ b :: bs :=
              fun x hx => hr2sub x (List.drop_subset _ _ hx)
            have htklen : (r2.take len).length = len := by
              rw [List.length_take]; omega
            have hdplen : (r2.drop len).length = r2.length - len := List.length_drop ..
            have htgsub : ∀ x ∈ tg, x ∈ b :: bs := by
              rw [hdata]; intro x hx; exact List.mem_append_left _ hx
            have htghex : hexDecode (upperHex tg).data = some tg :=
              hexDecode_upperHex tg (fun x hx => hb x (htgsub x hx))
            have hminlen := decodeLength_minimal (fun x hx => hb x (hrsub x hx)) heq2
            have hdlen : (b :: bs).length = tg.length + r.length := by
              rw [hdata, List.length_append]
            split at hdec
            · rename_i hcon
              split at hdec
              · exact Except.noConfusion hdec
              · rename_i decoded heq3
                split at hdec
                · exact Except.noConfusion hdec
                · rename_i tlvs heq4
                  obtain rfl : TLV.mk (upperHex tg) [] decoded :: tlvs = l := by
                    simpa using hdec
                  obtain ⟨vOut, hencV, hlenV, hdecV, hcanoV, hiffV⟩ :=
                    encode_decode (r2.take len) (fun x hx => hb x (htksub x hx)) (by omega) decoded heq3
                  obtain ⟨tOut, hencT, hlenT, hdecT, hcanoT, hiffT⟩ :=
                    encode_decode (r2.drop len) (fun x hx => hb x (hdpsub x hx)) (by rw [hdplen]; omega) tlvs heq4
                  by_cases hdcd : decoded = []
                  · subst hdcd
                    have hcanon : canonicalBytes
                        (tg ++ encodeLength (List.length ([] : List Nat)) ++ [] ++ tOut) = true :=
                      canonicalBytes_record tg hvt hnz [] (by decide) tOut
                        (fun _ => canonicalBytes_nil) hcanoT
                    refine ⟨tg ++ encodeLength (List.length ([] : List Nat)) ++ [] ++ tOut,
                      ?_, ?_, ?_, hcanon, ⟨?_, fun hout => hout ▸ hcanon⟩⟩
                    · rw [Encode]
                      simp only [htghex, hvt]
                      rw [if_neg (by simp)]
                      simp only [hencT]
                    · have h0 : (encodeLength (List.length ([] : List Nat))).length = 1 := by decide
                      simp only [List.length_append, h0]
                      have hmono : (1 : Nat) ≤ (encodeLength len).length := by
                        have := encodeLength_len_mono (Nat.zero_le len)
                        have h00 : (encodeLength 0).length = 1 := by decide
                        omega
                      simp only [List.length_nil]
                      omega
                    · have hstep := @Decode_cons _ hvt hnz ([] : List Nat) (by simp) tOut
                      simp only [List.append_assoc] at hstep ⊢
                      rw [hstep, if_pos hcon, Decode_nil, hdecT]
                    · intro hc
                      rw [canonicalBytes_step heq hnz heq2 hle] at hc
                      simp only [Bool.and_eq_true, beq_iff_eq] at hc
                      obtain ⟨⟨hrestEq, hcantk⟩, hcandp⟩ := hc
                      rw [if_pos hcon] at hcantk
                      have htknil : r2.take len = [] := canonical_decode_nil hcantk heq3
                      have hlen0 : len = 0 := by
                        rw [← htklen, htknil]
                        rfl
                      subst hlen0
                      rw [hiffT.mp hcandp]
                      rw [hdata, hrestEq]
                      simp [List.drop_zero]
                  · have hvlen : vOut.length < 2 ^ 63 := by omega
                    have hcanon : canonicalBytes
                        (tg ++ encodeLength vOut.length ++ vOut ++ tOut) = true :=
                      canonicalBytes_record tg hvt hnz vOut hvlen tOut
                        (fun _ => hcanoV) hcanoT
                    refine ⟨tg ++ encodeLength vOut.length ++ vOut ++ tOut,
                      ?_, ?_, ?_, hcanon, ⟨?_, fun hout => hout ▸ hcanon⟩⟩
                    · rw [Encode]
                      simp only [htghex, hvt]
                      rw [if_pos (by simp [List.length_pos, hdcd]), if_neg (by simp [hcon])]
                      simp only [hencV, hencT]
                    · have hmono := encodeLength_len_mono (htklen ▸ hlenV : vOut.length ≤ len)
                      simp only [List.length_append]
                      omega
                    · have hstep := @Decode_cons _ hvt hnz vOut (by omega) tOut
                      simp only [List.append_assoc] at hstep ⊢
                      rw [hstep, if_pos hcon, hdecV, hdecT]
                    · intro hc
                      rw [canonicalBytes_step heq hnz heq2 hle] at hc
                      simp only [Bool.and_eq_true, beq_iff_eq] at hc
                      obtain ⟨⟨hrestEq, hcantk⟩, hcandp⟩ := hc
                      rw [if_pos hcon] at hcantk
                      rw [hiffV.mp hcantk, hiffT.mp hcandp]
                      rw [hdata, hrestEq, htklen]
                      simp only [List.append_assoc, List.take_append_drop]
            · rename_i hcon
              split at hdec
              · exact Except.noConfusion hdec
              · rename_i tlvs heq4
                obtain rfl : TLV.mk (upperHex tg) (r2.take len) [] :: tlvs = l := by
                  simpa using hdec
                obtain ⟨tOut, hencT, hlenT, hdecT, hcanoT, hiffT⟩ :=
                  encode_decode (r2.drop len) (fun x hx => hb x (hdpsub x hx)) (by rw [hdplen]; omega) tlvs heq4
                have hcanon : canonicalBytes
                    (tg ++ encodeLength (r2.take len).length ++ (r2.take len) ++ tOut) = true :=
                  canonicalBytes_record tg hvt hnz (r2.take len) (by rw [htklen]; omega) tOut
                    (fun h => absurd h hcon) hcanoT
                refine ⟨tg ++ encodeLength (r2.take len).length ++ (r2.take len) ++ tOut,
                  ?_, ?_, ?_, hcanon, ⟨?_, fun hout => hout ▸ hcanon⟩⟩
                · rw [Encode]
                  simp only [htghex, hvt]
                  rw [if_neg (by simp)]
                  simp only [hencT]
                · rw [htklen]
                  simp only [List.length_append, htklen]
                  omega
                · have hstep := @Decode_cons _ hvt hnz (r2.take len)
                    (by rw [htklen]; omega) tOut
                  simp only [List.append_assoc] at hstep ⊢
                  rw [hstep, if_neg hcon, hdecT]
                · intro hc
                  rw [canonicalBytes_step heq hnz heq2 hle] at hc
                  simp only [Bool.and_eq_true, beq_iff_eq] at hc
                  obtain ⟨⟨hrestEq, -⟩, hcandp⟩ := hc
                  rw [hiffT.mp hcandp, htklen]
                  rw [hdata, hrestEq]
                  simp only [List.append_assoc, List.take_append_drop]
termination_by data => data.length
decreasing_by
  all_goals simp only [List.length_cons, List.length_take, List.length_drop] at *
  all_goals omega

/-! ### Decoded trees never carry the pad tag -/

theorem preorder_nil : preorder [] = [] := by rw [preorder]

theorem preorder_cons (t : TLV) (rest : List TLV) :
    preorder (t :: rest) = t :: (preorder t.TLVs ++ preorder rest) := by rw [preorder]

theorem validateTag_ne_nil {t : List Nat} (h : validateTag t = .ok ()) : t ≠ [] := by
  rcases (validateTag_ok_iff t).mp h with ⟨b, rfl, -⟩ | ⟨b, r, rfl, -⟩ <;> simp

theorem toUpper_lowerHexDigit_zero {d : Nat} (h : d < 16)
    (he : Char.toUpper (lowerHexDigit d) = '0') : d = 0 := by
  interval_cases d <;> first | rfl | exact absurd he (by decide)

/-- A decoded tag (non-pad first byte, genuine bytes) never prints as `"00"`. -/
theorem upperHex_ne_00 {tag : List Nat} (hne : tag ≠ []) (h0 : tag.headD 0 ≠ 0)
    (hlt : ∀ x ∈ tag, x < 256) : upperHex tag ≠ "00" := by
  cases tag with
  | nil => exact absurd rfl hne
  | cons b rest =>
    intro hcontra
    have hdata := congrArg String.data hcontra
    rw [upperHex_data] at hdata
    simp only [List.foldr_cons] at hdata
    have hb : b < 256 := hlt b (by simp)
    simp only [List.cons.injEq] at hdata
    obtain ⟨h1, h2, -⟩ := hdata
    have hd1 : b >>> 4 = 0 := toUpper_lowerHexDigit_zero (by rw [shr4]; omega) h1
    have hd2 : b &&& 15 = 0 := toUpper_lowerHexDigit_zero (by rw [and15]; omega) h2
    rw [shr4] at hd1
    rw [and15] at hd2
    have : b = 0 := by omega
    exact h0 (by simpa using this)

/-- No decoded node, at any depth, carries tag text `"00"`: the pad byte
never reappears in a node. -/
theorem decode_no00 :
    ∀ (data : List Nat), (∀ x ∈ data, x < 256) → ∀ l, Decode data = .ok l →
      ∀ t ∈ preorder l, t.Tag ≠ "00"
  | [], _, l, hdec => by
    rw [Decode_nil] at hdec
    obtain rfl : ([] : List TLV) = l := by simpa using hdec
    simp [preorder_nil]
  | b :: bs, hb, l, hdec => by
    rw [Decode] at hdec
    split at hdec
    · exact Except.noConfusion hdec
    · rename_i tg r heq
      obtain ⟨hdata, hvt⟩ := decodeTag_structure heq
      have hrsub : ∀ x ∈ r, x ∈ b :: bs := by
        rw [hdata]; intro x hx; exact List.mem_append_right _ hx
      have hrlen : r.length < (b :: bs).length := decodeTag_length heq
      split at hdec
      · exact decode_no00 r (fun x hx => hb x (hrsub x hx)) l hdec
      · rename_i hz
        have hnz : tg.headD 0 ≠ 0 := by simpa using hz
        split at hdec
        · exact Except.noConfusion hdec
        · rename_i len r2 heq2
          split at hdec
          · exact Except.noConfusion hdec
          · rename_i hle0
            have hpan : ¬(2 ^ 63 ≤ len) := by
              intro hwrap
              rw [if_pos hwrap] at hdec
              exact Except.noConfusion hdec
            rw [if_neg hpan] at hdec
            have hle : ¬(r2.length < len) := fun h => hle0 ⟨h, by omega⟩
            have hr2sub : ∀ x ∈ r2, x ∈ b :: bs := by
              intro x hx
              exact hrsub _ (decodeLength_subset heq2 x hx)
            have hr2len : r2.length < r.length := decodeLength_length heq2
            have htgsub : ∀ x ∈ tg, x ∈ b :: bs := by
              rw [hdata]; intro x hx; exact List.mem_append_left _ hx
            have htgne : upperHex tg ≠ "00" :=
              upperHex_ne_00 (validateTag_ne_nil hvt) hnz
                (fun x hx => hb x (htgsub x hx))
            split at hdec
            · rename_i hcon
              split at hdec
              · exact Except.noConfusion hdec
              · rename_i decoded heq3
                split at hdec
                · exact Except.noConfusion hdec
                · rename_i tlvs heq4
                  obtain rfl : TLV.mk (upperHex tg) [] decoded :: tlvs = l := by
                    simpa using hdec
                  intro t ht
                  rw [preorder_cons] at ht
                  rcases List.mem_cons.mp ht with rfl | ht2
                  · simpa [TLV.Tag] using htgne
                  · rcases List.mem_append.mp ht2 with ht3 | ht3
                    · exact decode_no00 (r2.take len)
                        (fun x hx => hb x (hr2sub x (List.take_subset _ _ hx)))
                        decoded heq3 t (by simpa [TLV.TLVs] using ht3)
                    · exact decode_no00 (r2.drop len)
                        (fun x hx => hb x (hr2sub x (List.drop_subset _ _ hx)))
                        tlvs heq4 t ht3
            · rename_i hcon
              split at hdec
              · exact Except.noConfusion hdec
              · rename_i tlvs heq4
                obtain rfl : TLV.mk (upperHex tg) (r2.take len) [] :: tlvs = l := by
                  simpa using hdec
                intro t ht
                rw [preorder_cons] at ht
                rcases List.mem_cons.mp ht with rfl | ht2
                · simpa [TLV.Tag] using htgne
                · rcases List.mem_append.mp ht2 with ht3 | ht3
                  · simp [TLV.TLVs, preorder_nil] at ht3
                  · exact decode_no00 (r2.drop len)
                      (fun x hx => hb x (hr2sub x (List.drop_subset _ _ hx)))
                      tlvs heq4 t ht3
termination_by data => data.length
decreasing_by
  all_goals simp only [List.length_cons, List.length_take, List.length_drop] at *
  all_goals omega

/-! ### The lookups, related to their specifications -/

/-- The map the one-pass builder produces: under each key, whatever was
already there, then every node of the forest bearing that tag in depth-first
pre-order. -/
theorem flattenTags_eq :
    ∀ (tlvs : List TLV) (m : String → List TLV) (k : String),
      flattenTags tlvs m k = m k ++ (preorder tlvs).filter (fun t => t.Tag == k)
  | [], m, k => by
    rw [flattenTags, preorder_nil]
    simp
  | tlv :: rest, m, k => by
    simp only [flattenTags]
    rw [flattenTags_eq rest _ k]
    rw [preorder_cons, List.filter_cons, List.filter_append]
    by_cases hc : tlv.TLVs.length > 0
    · rw [if_pos hc, flattenTags_eq tlv.TLVs _ k]
      by_cases hk : tlv.Tag = k
      · rw [if_pos (by simpa using hk.symm)]
        rw [if_pos (by simpa using hk), hk]
        simp [List.append_assoc]
      · rw [if_neg (by simpa using (fun h => hk h.symm : ¬k = tlv.Tag))]
        rw [if_neg (by simpa using hk)]
        simp [List.append_assoc]
    · rw [if_neg hc]
      have hnil : tlv.TLVs = [] := by
        cases h : tlv.TLVs with
        | nil => rfl
        | cons a b => rw [h] at hc; simp at hc
      rw [hnil, preorder_nil]
      by_cases hk : tlv.Tag = k
      · rw [if_pos (by simpa using hk.symm)]
        rw [if_pos (by simpa using hk), hk]
        simp [List.append_assoc]
      · rw [if_neg (by simpa using (fun h => hk h.symm : ¬k = tlv.Tag))]
        rw [if_neg (by simpa using hk)]
        simp [List.append_assoc]
termination_by tlvs => sizeOf tlvs
decreasing_by
  all_goals have := TLV.sizeOf_TLVs_lt tlv
  all_goals simp only [List.cons.sizeOf_spec]
  all_goals omega

theorem stringMk_eq_empty {l : List Char} (h : String.mk l = "") : l = [] := by
  have := congrArg String.data h
  simpa using this

theorem mk_beq_empty (l : List Char) : (String.mk l == "") = l.isEmpty := by
  cases l with
  | nil => decide
  | cons c cs =>
    simp only [List.isEmpty_cons]
    rw [beq_eq_false_iff_ne]
    intro h
    exact absurd (stringMk_eq_empty h) (by simp)

theorem findInLevel_cons (tlv : TLV) (rest : List TLV) (tag path : String) :
    findInLevel (tlv :: rest) tag path =
      (if tlv.Tag == tag then
        if path == "" then some tlv
        else if tlv.TLVs.length > 0 then FindTagByPath tlv.TLVs path
        else findInLevel rest tag path
      else findInLevel rest tag path) := by
  rw [findInLevel]

/-- The level scan, described by `find?`: a terminal segment takes the first
sibling bearing it; a non-terminal segment takes the first sibling bearing it
that has children and descends. -/
theorem findInLevel_eq (tlvs : List TLV) (seg rest : List Char) :
    findInLevel tlvs (String.mk seg) (String.mk rest) =
      (if rest.isEmpty then tlvs.find? (fun t => t.Tag == String.mk seg)
       else
         match tlvs.find? (fun t => t.Tag == String.mk seg && !t.TLVs.isEmpty) with
         | some t => FindTagByPath t.TLVs (String.mk rest)
         | none => none) := by
  induction tlvs with
  | nil =>
    rw [findInLevel]
    split <;> simp
  | cons tlv rest' ih =>
    rw [findInLevel_cons, ih]
    by_cases htag : tlv.Tag == String.mk seg
    · rw [if_pos htag]
      by_cases hre : rest.isEmpty
      · rw [if_pos hre, if_pos hre]
        have hres : rest = [] := by
          cases rest with
          | nil => rfl
          | cons c cs => simp at hre
        subst hres
        rw [if_pos (by decide)]
        rw [@List.find?_cons_of_pos TLV (fun t => t.Tag == String.mk seg) tlv rest' htag]
      · rw [if_neg hre, if_neg hre]
        have hne : (String.mk rest == "") = false := by
          rw [mk_beq_empty]
          cases rest with
          | nil => simp at hre
          | cons c cs => simp
        rw [if_neg (by simp [hne])]
        by_cases hch : tlv.TLVs.length > 0
        · rw [if_pos hch]
          have hcond : (tlv.Tag == String.mk seg && !tlv.TLVs.isEmpty) = true := by
            rw [htag]
            cases h : tlv.TLVs with
            | nil => rw [h] at hch; simp at hch
            | cons a b => simp
          rw [@List.find?_cons_of_pos TLV
            (fun t => t.Tag == String.mk seg && !t.TLVs.isEmpty) tlv rest' hcond]
        · rw [if_neg hch]
          have hcond : (tlv.Tag == String.mk seg && !tlv.TLVs.isEmpty) = false := by
            cases h : tlv.TLVs with
            | nil => simp [h]
            | cons a b => rw [h] at hch; simp at hch
          rw [@List.find?_cons_of_neg TLV
            (fun t => t.Tag == String.mk seg && !t.TLVs.isEmpty) tlv rest' (by simp [hcond])]
    · rw [if_neg htag]
      by_cases hre : rest.isEmpty
      · rw [if_pos hre, if_pos hre]
        rw [@List.find?_cons_of_neg TLV (fun t => t.Tag == String.mk seg) tlv rest'
          (by simp [htag])]
      · rw [if_neg hre, if_neg hre]
        rw [@List.find?_cons_of_neg TLV
          (fun t => t.Tag == String.mk seg && !t.TLVs.isEmpty) tlv rest' (by simp [htag])]

theorem splitPath_ne_nil (s : String) : splitPath s ≠ [] := by
  rw [splitPath]
  split
  · split
    · simp
    · simp

theorem splitPath_eq (s : String) {seg rest : List Char} (h : cutDot s.data = (seg, rest)) :
    splitPath s =
      if rest.isEmpty then [String.mk seg]
      else String.mk seg :: splitPath (String.mk rest) := by
  rw [splitPath]
  split
  · rename_i seg' rest' heq
    rw [h] at heq
    simp only [Prod.mk.injEq] at heq
    obtain ⟨rfl, rfl⟩ : seg = seg' ∧ rest = rest' := ⟨heq.1, heq.2⟩
    rfl

/-- `FindTagByPath` is the segment-by-segment descent: terminal segments take
the first matching sibling, non-terminal segments take the first matching
sibling bearing children. -/
theorem FindTagByPath_eq (tlvs : List TLV) (path : String) :
    FindTagByPath tlvs path = pathFind tlvs (splitPath path) := by
  cases hcut : cutDot path.data with
  | mk seg rest =>
    rw [FindTagByPath]
    simp only [hcut]
    rw [findInLevel_eq, splitPath_eq path hcut]
    by_cases hre : rest.isEmpty
    · rw [if_pos hre, if_pos hre, pathFind]
    · rw [if_neg hre, if_neg hre]
      obtain ⟨s2, r2, hsp⟩ : ∃ s2 r2, splitPath (String.mk rest) = s2 :: r2 := by
        cases h : splitPath (String.mk rest) with
        | nil => exact absurd h (splitPath_ne_nil _)
        | cons a b => exact ⟨a, b, rfl⟩
      rw [hsp, pathFind]
      cases hfind : tlvs.find? (fun t => t.Tag == String.mk seg && !t.TLVs.isEmpty) with
      | none => rfl
      | some t =>
        dsimp only
        have hmem : t ∈ tlvs := List.mem_of_find?_eq_some hfind
        have hsz : sizeOf t.TLVs < sizeOf tlvs :=
          lt_trans (TLV.sizeOf_TLVs_lt t) (List.sizeOf_lt_of_mem hmem)
        rw [FindTagByPath_eq t.TLVs (String.mk rest), hsp]
termination_by sizeOf tlvs

/-! ### Remaining spec-side notions -/

/-- Spec-side: the big-endian value of a byte string, for stating that the
long-form bytes are "the minimal big-endian bytes of the length". -/
def beValue (bs : List Nat) : Nat :=
  bs.foldl (fun acc b => acc * 256 + b) 0

/-- Spec-side: does `sub` occur contiguously inside `s`?  Used to state that
an error message does (not) name a tag. -/
def hasSub (needle : List Char) : List Char → Bool
  | [] => needle.isEmpty
  | c :: rest => needle.isPrefixOf (c :: rest) || hasSub needle rest

/-- Spec-side: does the text `sub` occur inside the text `s`? -/
def mentions (s sub : String) : Bool :=
  hasSub sub.data s.data

theorem foldl_shift_eq_mul : ∀ (bs : List Nat), (∀ x ∈ bs, x < 256) → ∀ (a : Nat),
    bs.foldl (fun acc x => (acc <<< 8) ||| x) a = bs.foldl (fun acc b => acc * 256 + b) a
  | [], _, a => rfl
  | b :: rest, h, a => by
    simp only [List.foldl_cons]
    rw [shl8_lor a (h b (by simp))]
    exact foldl_shift_eq_mul rest (fun x hx => h x (by simp [hx])) _

theorem beValue_lengthBytesOf (n : Nat) : beValue (lengthBytesOf n) = n := by
  rw [beValue, ← foldl_shift_eq_mul _ (lengthBytesOf_lt n), lengthBytesOf_foldl]

theorem mem_preorder : ∀ (l : List TLV) (t : TLV), t ∈ l → t ∈ preorder l
  | [], t, h => by simp at h
  | x :: rest, t, h => by
    rw [preorder_cons]
    rcases List.mem_cons.mp h with rfl | h2
    · exact List.mem_cons_self _ _
    · exact List.mem_cons_of_mem _ (List.mem_append_right _ (mem_preorder rest t h2))

theorem FindFirst_eq_head? (tagMap : String → List TLV) (tag : String) :
    FindFirst tagMap tag = (tagMap tag).head? := by
  rw [FindFirst]
  cases tagMap tag <;> rfl


/-! ## Claim theorems -/

/-- C1 counterexample.  Three trees meet the claim's well-formedness (hex,
shape-valid tags; children only under constructed tags) yet fail the claimed
round trip: a leaf with tag `00` encodes fine but decodes to nothing (the
encoder emits the pad byte, the decoder skips it); a constructed node
carrying both children and a direct value loses the value; a constructed-tag
leaf with a non-empty value does not decode at all. -/
theorem C1_counterexample :
    (claimWellFormedList [⟨"00", [], []⟩] = true ∧
      Encode [⟨"00", [], []⟩] = .ok [0, 0] ∧
      Decode [0, 0] = .ok [] ∧
      toUpperTags [⟨"00", [], []⟩] ≠ []) ∧
    (claimWellFormedList [⟨"A5", [9], [⟨"84", [2], []⟩]⟩] = true ∧
      Encode [⟨"A5", [9], [⟨"84", [2], []⟩]⟩] = .ok [165, 3, 132, 1, 2] ∧
      Decode [165, 3, 132, 1, 2] = .ok [⟨"A5", [], [⟨"84", [2], []⟩]⟩] ∧
      toUpperTags [⟨"A5", [9], [⟨"84", [2], []⟩]⟩] ≠ [⟨"A5", [], [⟨"84", [2], []⟩]⟩]) ∧
    (claimWellFormedList [⟨"A5", [1], []⟩] = true ∧
      Encode [⟨"A5", [1], []⟩] = .ok [165, 1, 1] ∧
      ∀ l, Decode [165, 1, 1] ≠ .ok l) := by
  refine ⟨⟨?_, ?_, ?_, ?_⟩, ⟨?_, ?_, ?_, ?_⟩, ⟨?_, ?_, ?_⟩⟩
  · simp [claimWellFormedList, claimWellFormed, hexDecode, fromHexChar, validateTag,
      isMultiByte, isConstructed, and31, and32, shl4]
  · simp [Encode, hexDecode, fromHexChar, validateTag, isMultiByte, isConstructed,
      encodeLength, lengthBytesOf, lengthBytesOfAux, and31, and32, shl4]
  · simp [Decode, decodeTag, isMultiByte, decodeLength, isConstructed, and31, and32, and127]
  · simp [toUpperTags]
  · simp [claimWellFormedList, claimWellFormed, hexDecode, fromHexChar, validateTag,
      isMultiByte, isConstructed, and31, and32, shl4]
  · simp [Encode, hexDecode, fromHexChar, validateTag, isMultiByte, isConstructed,
      encodeLength, lengthBytesOf, lengthBytesOfAux, and31, and32, shl4]
  · simp [Decode, decodeTag, isMultiByte, decodeLength, isConstructed, upperHex,
      toUpperString, hexEncodeToString, lowerHexDigit, hextable, and31, and32, and127,
      and15, shr4]
  · simp [toUpperTags, toUpperString]
  · simp [claimWellFormedList, claimWellFormed, hexDecode, fromHexChar, validateTag,
      isMultiByte, isConstructed, and31, and32, shl4]
  · simp [Encode, hexDecode, fromHexChar, validateTag, isMultiByte, isConstructed,
      encodeLength, lengthBytesOf, lengthBytesOfAux, and31, and32, shl4]
  · intro l
    have : Decode [165, 1, 1] = .error
        "decoding composite: reading length for tag 01: length is empty" := by
      simp [Decode, decodeTag, isMultiByte, decodeLength, isConstructed, upperHex,
        toUpperString, hexEncodeToString, lowerHexDigit, hextable, and31, and32, and127,
        and15, shr4]
    rw [this]
    simp



/-- C1 (amended).  For a tree that is well formed in the amended sense — tags
hex-decode (either case) to shape-valid bytes, no tag is the pad byte `00`,
constructed-tag nodes carry children only and primitive-tag nodes carry a
value only — `Encode` succeeds, and (within Go's `int` range, below `2^63`
bytes) decoding the result returns exactly the tree with its tag text
uppercased. -/
theorem C1_roundtrip (tlvs : List TLV) (hwf : wellFormedList tlvs = true) :
    (∃ out, Encode tlvs = .ok out) ∧
    (∀ out, Encode tlvs = .ok out → out.length < 2 ^ 63 →
      Decode out = .ok (toUpperTags tlvs)) := by
  obtain ⟨out0, henc0, hdec0⟩ := decode_encode tlvs hwf
  refine ⟨⟨out0, henc0⟩, ?_⟩
  intro out henc hb
  obtain rfl : out0 = out := by
    rw [henc0] at henc
    simpa using henc
  have := hdec0 [] [] hb Decode_nil
  simpa using this

/-- C1 witness: a concrete mixed-case tree. -/
theorem C1_roundtrip_witness :
    (∃ out, Encode [⟨"a5", [], [⟨"84", [1, 2], []⟩]⟩] = .ok out) ∧
    (∀ out, Encode [⟨"a5", [], [⟨"84", [1, 2], []⟩]⟩] = .ok out → out.length < 2 ^ 63 →
      Decode out = .ok (toUpperTags [⟨"a5", [], [⟨"84", [1, 2], []⟩]⟩])) :=
  C1_roundtrip [⟨"a5", [], [⟨"84", [1, 2], []⟩]⟩]
    (by simp [wellFormedList, wellFormed, hexDecode, fromHexChar, validateTag, isMultiByte,
      isConstructed, and31, and32, shl4])

/-- C2 counterexample.  Two inputs on which `Decode` succeeds but re-encoding
does not reproduce the bytes: a lone pad byte (skipped, never re-emitted) and
a non-minimal long-form length field (re-encoded in minimal form). -/
theorem C2_counterexample :
    (Decode [0] = .ok [] ∧ Encode ([] : List TLV) = .ok [] ∧ ([] : List Nat) ≠ [0]) ∧
    (Decode [132, 129, 0] = .ok [⟨"84", [], []⟩] ∧
      Encode [⟨"84", [], []⟩] = .ok [132, 0] ∧
      ([132, 0] : List Nat) ≠ [132, 129, 0]) := by
  refine ⟨⟨?_, Encode_nil, by simp⟩, ⟨?_, ?_, by simp⟩⟩
  · simp [Decode, decodeTag, isMultiByte, and31]
  · simp [Decode, decodeTag, isMultiByte, decodeLength, isConstructed, upperHex,
      toUpperString, hexEncodeToString, lowerHexDigit, hextable, and31, and32, and127,
      and15, shr4]
  · simp [Encode, hexDecode, fromHexChar, validateTag, isMultiByte, isConstructed,
      encodeLength, lengthBytesOf, lengthBytesOfAux, and31, and32, shl4]

/-- C2 (amended).  Whatever `Decode` accepts (as genuine bytes, within Go's
`int` range) re-encodes successfully, no longer than the input, and decodes
back to the same tree; the re-encoding equals the input byte sequence exactly
when the input is canonical — no pad byte was skipped and every length field
was already minimal.  (The counterexample's inputs are non-canonical, and
their re-encodings differ.) -/
theorem C2_reencode (data : List Nat) (hbytes : ∀ x ∈ data, x < 256)
    (hlen : data.length < 2 ^ 63) (l : List TLV) (hdec : Decode data = .ok l) :
    ∃ out, Encode l = .ok out ∧ out.length ≤ data.length ∧ Decode out = .ok l ∧
      (canonicalBytes data = true ↔ out = data) := by
  obtain ⟨out, henc, hle, hdec2, -, hiff⟩ := encode_decode data hbytes hlen l hdec
  exact ⟨out, henc, hle, hdec2, hiff⟩

/-- C2 witness: a concrete canonical record. -/
theorem C2_reencode_witness :
    ∃ out, Encode [⟨"84", [7], []⟩] = .ok out ∧ out.length ≤ ([132, 1, 7] : List Nat).length ∧
      Decode out = .ok [⟨"84", [7], []⟩] ∧
      (canonicalBytes [132, 1, 7] = true ↔ out = [132, 1, 7]) :=
  C2_reencode [132, 1, 7] (by decide) (by decide) [⟨"84", [7], []⟩]
    (by simp [Decode, decodeTag, isMultiByte, decodeLength, isConstructed, upperHex,
      toUpperString, hexEncodeToString, lowerHexDigit, hextable, and31, and32, and127,
      and15, shr4])



/-- C3.  Lengths 0–127 encode as the single byte of the length; lengths at
least 128 (within Go's `int`) as the lead byte `0x80 | k` followed by the
`k` big-endian bytes of the value, with no shorter byte count possible; the
boundary values 127, 128 and 256 produce the expected bytes; `decodeLength`
inverts `encodeLength` (short lead is the length itself, one byte consumed;
a long lead consumes `lead & 0x7F` following bytes big-endian) and fails
when fewer than `k` bytes remain. -/
theorem C3_length_forms :
    (∀ n, n < 128 → encodeLength n = [n]) ∧
    (∀ n, 128 ≤ n → n < 2 ^ 63 →
      encodeLength n = (128 ||| (lengthBytesOf n).length) :: lengthBytesOf n ∧
      beValue (lengthBytesOf n) = n ∧ (∀ x ∈ lengthBytesOf n, x < 256) ∧
      n < 256 ^ (lengthBytesOf n).length ∧ 256 ^ ((lengthBytesOf n).length - 1) ≤ n) ∧
    (encodeLength 127 = [127] ∧ encodeLength 128 = [129, 128] ∧
      encodeLength 256 = [130, 1, 0]) ∧
    (∀ n rest, n < 2 ^ 63 → decodeLength (encodeLength n ++ rest) = .ok (n, rest)) ∧
    (∀ b rest, b < 128 → decodeLength (b :: rest) = .ok (b, rest)) ∧
    (∀ b rest, ¬(b < 128) → rest.length < (b &&& 127) →
      decodeLength (b :: rest) = .error "length is incomplete") := by
  refine ⟨?_, ?_, ⟨by decide, by decide, by decide⟩, ?_, ?_, ?_⟩
  · intro n h
    rw [encodeLength, if_pos h]
  · intro n h1 h2
    refine ⟨?_, beValue_lengthBytesOf n, lengthBytesOf_lt n, lengthBytesOf_lt_pow n,
      lengthBytesOf_min (by omega)⟩
    rw [encodeLength, if_neg (by omega)]
  · intro n rest h
    exact decodeLength_encodeLength h rest
  · intro b rest h
    rw [decodeLength_cons, if_pos h]
  · intro b rest h1 h2
    exact decodeLength_incomplete h1 h2

/-- C3 witness: length 300 in long form, a short length, and a truncated
long-form field. -/
theorem C3_witness :
    encodeLength 5 = [5] ∧
    decodeLength (encodeLength 300 ++ [9]) = .ok (300, [9]) ∧
    decodeLength [5, 1, 2] = .ok (5, [1, 2]) ∧
    decodeLength [130, 1] = .error "length is incomplete" :=
  ⟨C3_length_forms.1 5 (by decide),
   C3_length_forms.2.2.2.1 300 [9] (by decide),
   C3_length_forms.2.2.2.2.1 5 [1, 2] (by decide),
   C3_length_forms.2.2.2.2.2 130 [1] (by decide) (by decide)⟩

/-- C4.  A `0x00` in tag position is skipped whole — decoding the rest of the
buffer unchanged, consuming no length or value, emitting no node — wherever a
tag is expected (composites decode their value region with the same
function); a buffer of two records separated by a pad byte decodes to exactly
the two records; and no decoded node at any depth carries the pad tag. -/
theorem C4_padding_skip :
    (∀ rest, Decode (0 :: rest) = Decode rest) ∧
    (Decode ([132, 1, 7] ++ 0 :: [80, 1, 9]) =
      .ok [⟨"84", [7], []⟩, ⟨"50", [9], []⟩]) ∧
    (∀ data l, (∀ x ∈ data, x < 256) → Decode data = .ok l →
      ∀ t ∈ preorder l, t.Tag ≠ "00") := by
  refine ⟨Decode_pad, ?_, fun data l hb hdec => decode_no00 data hb l hdec⟩
  simp [Decode, decodeTag, isMultiByte, decodeLength, isConstructed, upperHex,
    toUpperString, hexEncodeToString, lowerHexDigit, hextable, and31, and32, and127,
    and15, shr4]

/-- C4 witness. -/
theorem C4_padding_skip_witness :
    Decode (0 :: [132, 1, 7]) = Decode [132, 1, 7] ∧
    (∀ t ∈ preorder [(⟨"84", [7], []⟩ : TLV)], t.Tag ≠ "00") :=
  ⟨C4_padding_skip.1 [132, 1, 7],
   C4_padding_skip.2.2 [132, 1, 7] [⟨"84", [7], []⟩] (by decide)
     (by simp [Decode, decodeTag, isMultiByte, decodeLength, isConstructed, upperHex,
       toUpperString, hexEncodeToString, lowerHexDigit, hextable, and31, and32, and127,
       and15, shr4])⟩



/-- C5 counterexample.  A constructed-tag node carrying both children and a
direct value is not rejected: `Encode` succeeds, silently dropping the direct
value `9` from the output. -/
theorem C5_counterexample :
    Encode [⟨"A5", [9], [⟨"84", [2], []⟩]⟩] = .ok [165, 3, 132, 1, 2] ∧
    Encode [⟨"A5", [9], [⟨"84", [2], []⟩]⟩] = Encode [⟨"A5", [], [⟨"84", [2], []⟩]⟩] := by
  constructor <;>
    simp [Encode, hexDecode, fromHexChar, validateTag, isMultiByte, isConstructed,
      encodeLength, lengthBytesOf, lengthBytesOfAux, and31, and32, shl4]

/-- C5 (amended).  A node with children whose tag has the constructed bit
clear makes `Encode` fail; a constructed tag accepts children; and when a
node supplies both children and a direct value the value is silently ignored
(the output is that of the same node without the value), not an error. -/
theorem C5_constructed_check :
    (∀ tg v c rest tagB, hexDecode (String.data tg) = some tagB →
      isConstructed tagB = false → c ≠ [] →
      ∃ e, Encode (⟨tg, v, c⟩ :: rest) = .error e) ∧
    (∀ tg v c rest, c ≠ [] →
      Encode (⟨tg, v, c⟩ :: rest) = Encode (⟨tg, [], c⟩ :: rest)) ∧
    Encode [⟨"A5", [], [⟨"84", [2], []⟩]⟩] = .ok [165, 3, 132, 1, 2] := by
  refine ⟨?_, ?_, ?_⟩
  · intro tg v c rest tagB hhex hcon hc
    rw [Encode]
    simp only [hhex]
    cases hvt : validateTag tagB with
    | error e => exact ⟨_, rfl⟩
    | ok u =>
      cases u
      rw [if_pos (by simp [List.length_pos, hc])]
      rw [if_pos (by simp [hcon])]
      exact ⟨_, rfl⟩
  · intro tg v c rest hc
    rw [Encode, Encode]
    cases hhex : hexDecode tg.data with
    | none => simp only [hhex]
    | some tagB =>
      simp only [hhex]
      cases hvt : validateTag tagB with
      | error e => simp only [hvt]
      | ok u =>
        cases u
        simp only [hvt]
        have hcp : c.length > 0 := by simp [List.length_pos, hc]
        rw [if_pos hcp, if_pos hcp]
  · simp [Encode, hexDecode, fromHexChar, validateTag, isMultiByte, isConstructed,
      encodeLength, lengthBytesOf, lengthBytesOfAux, and31, and32, shl4]

/-- C5 witness: tag `84` (primitive) with children is rejected; dropping a
direct value from a composite leaves the encoding unchanged. -/
theorem C5_constructed_check_witness :
    (∃ e, Encode [(⟨"84", [7], [⟨"84", [2], []⟩]⟩ : TLV)] = .error e) ∧
    Encode [(⟨"A5", [9], [⟨"84", [2], []⟩]⟩ : TLV)] =
      Encode [(⟨"A5", [], [⟨"84", [2], []⟩]⟩ : TLV)] :=
  ⟨C5_constructed_check.1 "84" [7] [⟨"84", [2], []⟩] [] [132] (by decide) (by decide)
     (by simp),
   C5_constructed_check.2.1 "A5" [9] [⟨"84", [2], []⟩] [] (by simp)⟩



/-- C6 counterexample.  The insufficient-data error reports the expected
length only; the offending tag (`84` here) appears nowhere in the message. -/
theorem C6_counterexample :
    Decode [132, 5] = .error "insufficient data for expected length 5" ∧
    mentions "insufficient data for expected length 5" "84" = false := by
  constructor
  · have h : Decode [132, 5] =
        .error ("insufficient data for expected length " ++ toString 5) := by
      simp [Decode, decodeTag, isMultiByte, decodeLength, isConstructed, and31, and32,
        and127]
    rw [h]
    have h2 : ("insufficient data for expected length " ++ toString 5)
        = "insufficient data for expected length 5" := by decide
    rw [h2]
  · decide

/-- C6 (amended).  Whenever a decoded length is non-negative as a Go `int`
(below `2^63`) and exceeds the remaining bytes — directly, inside a
composite's value region, or later in the buffer — the whole `Decode` call
returns an error and no nodes at all; the insufficient-data error reports
the expected length (it does not name the offending tag).  A length field
that wraps negative in the 64-bit accumulator escapes the check and the
value slice panics instead of reporting insufficient data. -/
theorem C6_truncation :
    (∀ data tag rest n rest2, decodeTag data = .ok (tag, rest) → tag.headD 0 ≠ 0 →
      decodeLength rest = .ok (n, rest2) → rest2.length < n → n < 2 ^ 63 →
      Decode data = .error ("insufficient data for expected length " ++ toString n)) ∧
    (∀ data tag rest n rest2 e, decodeTag data = .ok (tag, rest) → tag.headD 0 ≠ 0 →
      decodeLength rest = .ok (n, rest2) → ¬(rest2.length < n) → n < 2 ^ 63 →
      isConstructed tag = true →
      Decode (rest2.take n) = .error e →
      Decode data = .error ("decoding composite: " ++ e)) ∧
    (∀ data tag rest n rest2 e decoded, decodeTag data = .ok (tag, rest) →
      tag.headD 0 ≠ 0 → decodeLength rest = .ok (n, rest2) → ¬(rest2.length < n) →
      n < 2 ^ 63 →
      (if isConstructed tag then Decode (rest2.take n) = .ok decoded else True) →
      Decode (rest2.drop n) = .error e →
      Decode data = .error e) ∧
    (∀ data tag rest n rest2, decodeTag data = .ok (tag, rest) → tag.headD 0 ≠ 0 →
      decodeLength rest = .ok (n, rest2) → 2 ^ 63 ≤ n →
      Decode data = .error "panic: runtime error: slice bounds out of range") := by
  refine ⟨fun data tag rest n rest2 h1 h2 h3 h4 h5 => Decode_insufficient h1 h2 h3 h4 h5,
    ?_, ?_, fun data tag rest n rest2 h1 h2 h3 h4 => Decode_panic h1 h2 h3 h4⟩
  · intro data tag rest n rest2 e h1 h2 h3 h4 hb h5 h6
    rw [Decode_step h1 h2 h3 h4 hb, if_pos h5, h6]
  · intro data tag rest n rest2 e decoded h1 h2 h3 h4 hb h5 h6
    rw [Decode_step h1 h2 h3 h4 hb]
    by_cases hcon : isConstructed tag
    · rw [if_pos hcon] at h5 ⊢
      rw [h5, h6]
    · rw [if_neg hcon, h6]

/-- C6 witness: a record announcing five value bytes with none remaining,
and a nine-byte length field whose value wraps to `2^63` — negative as a Go
`int` — making the slice panic rather than report insufficient data. -/
theorem C6_truncation_witness :
    Decode [132, 5] = .error ("insufficient data for expected length " ++ toString 5) ∧
    Decode [132, 137, 1, 128, 0, 0, 0, 0, 0, 0, 0] =
      .error "panic: runtime error: slice bounds out of range" :=
  ⟨C6_truncation.1 [132, 5] [132] [5] 5 [] rfl (by decide) rfl (by decide) (by decide),
   C6_truncation.2.2.2 [132, 137, 1, 128, 0, 0, 0, 0, 0, 0, 0] [132]
     [137, 1, 128, 0, 0, 0, 0, 0, 0, 0] (2 ^ 63) [] rfl (by decide) (by rfl) (by decide)⟩

/-- C7.  Evaluating the code at the failing input: `FindFirstTag` descends
into the first composite sibling and abandons the rest of the level, so it
misses the `84` leaf that follows, while the claimed depth-first pre-order
search finds it. -/
theorem C7_bug_eval :
    FindFirstTag [⟨"A5", [], [⟨"50", [5], []⟩]⟩, ⟨"84", [7], []⟩] "84" = none ∧
    specFindFirstTag [⟨"A5", [], [⟨"50", [5], []⟩]⟩, ⟨"84", [7], []⟩] "84" =
      some ⟨"84", [7], []⟩ := by
  constructor
  · simp [FindFirstTag, TLV.Tag, TLV.TLVs]
  · simp [specFindFirstTag, preorder, TLV.Tag, TLV.TLVs]



/-- C8 counterexample.  On a level containing a leaf `6F` followed by a
composite `6F`, the path `"6F.84"` resolves: the non-terminal segment matched
the leaf first, yet the lookup is not "not-found" — the scan skips the
matching leaf and descends into the later matching composite. -/
theorem C8_counterexample :
    FindTagByPath [⟨"6F", [1], []⟩, ⟨"6F", [], [⟨"84", [2], []⟩]⟩] "6F.84" =
      some ⟨"84", [2], []⟩ := by
  simp [FindTagByPath, findInLevel, cutDot, TLV.Tag, TLV.TLVs]

/-- C8 (amended).  `FindTagByPath` descends one dot-separated segment per
level: the last segment selects the first sibling bearing it; a non-terminal
segment skips matching leaf siblings and descends into the first matching
sibling that has children, returning not-found when there is none or when the
recursive lookup fails.  On the spec's tree, the full path reaches the `4F`
leaf and a wrong intermediate segment is not found. -/
theorem C8_path_lookup :
    (∀ tlvs path, FindTagByPath tlvs path = pathFind tlvs (splitPath path)) ∧
    FindTagByPath
      [⟨"6F", [], [⟨"A5", [], [⟨"BF0C", [], [⟨"61", [],
        [⟨"4F", [160, 0, 0, 0, 4, 16, 16], []⟩, ⟨"50", [77], []⟩, ⟨"87", [1], []⟩]⟩]⟩]⟩]⟩]
      "6F.A5.BF0C.61.4F" = some ⟨"4F", [160, 0, 0, 0, 4, 16, 16], []⟩ ∧
    FindTagByPath
      [⟨"6F", [], [⟨"A5", [], [⟨"BF0C", [], [⟨"61", [],
        [⟨"4F", [160, 0, 0, 0, 4, 16, 16], []⟩, ⟨"50", [77], []⟩, ⟨"87", [1], []⟩]⟩]⟩]⟩]⟩]
      "6F.A4.BF0C.61.4F" = none := by
  refine ⟨FindTagByPath_eq, ?_, ?_⟩ <;>
    simp [FindTagByPath, findInLevel, cutDot, TLV.Tag, TLV.TLVs]

/-- C9.  The one-pass tag map sends every tag to the list of all nodes
bearing it anywhere in the tree, in depth-first pre-order; `Find` returns all
occurrences (with the found flag), `FindFirst` the first; three sibling
subtrees each containing a `9F10` leaf yield all three values in encounter
order. -/
theorem C9_tag_map :
    (∀ tlvs tag, BuildTagMap tlvs tag = (preorder tlvs).filter (fun t => t.Tag == tag)) ∧
    (∀ tlvs tag, Find (BuildTagMap tlvs) tag =
      ((preorder tlvs).filter (fun t => t.Tag == tag),
        !((preorder tlvs).filter (fun t => t.Tag == tag)).isEmpty)) ∧
    (∀ tlvs tag, FindFirst (BuildTagMap tlvs) tag =
      ((preorder tlvs).filter (fun t => t.Tag == tag)).head?) ∧
    BuildTagMap
      [⟨"70", [], [⟨"9F10", [1], []⟩]⟩, ⟨"77", [], [⟨"9F10", [2], []⟩]⟩,
        ⟨"80", [], [⟨"9F10", [3], []⟩]⟩] "9F10" =
      [⟨"9F10", [1], []⟩, ⟨"9F10", [2], []⟩, ⟨"9F10", [3], []⟩] := by
  have hmap : ∀ tlvs tag, BuildTagMap tlvs tag =
      (preorder tlvs).filter (fun t => t.Tag == tag) := by
    intro tlvs tag
    rw [BuildTagMap, flattenTags_eq]
    simp
  refine ⟨hmap, ?_, ?_, ?_⟩
  · intro tlvs tag
    rw [Find, hmap]
  · intro tlvs tag
    rw [FindFirst_eq_head?, hmap]
  · simp [BuildTagMap, flattenTags, TLV.Tag, TLV.TLVs]

/-- C10.  A leaf with tag text `"00"` passes tag validation and encodes as
the pad byte followed by length and value; but decoding skips any `0x00` in
tag position, so no decoded tree ever contains a node with tag `"00"` — in
particular `Decode (Encode [n])` never returns `[n]`; for the empty value it
returns the empty list. -/
theorem C10_tag00_not_roundtrippable :
    (∀ v : List Nat, Encode [⟨"00", v, []⟩] = .ok (0 :: (encodeLength v.length ++ v))) ∧
    Decode [0, 0] = .ok [] ∧
    (∀ data l, (∀ x ∈ data, x < 256) → Decode data = .ok l →
      ∀ v c, (⟨"00", v, c⟩ : TLV) ∉ l) := by
  refine ⟨?_, ?_, ?_⟩
  · intro v
    rw [Encode]
    have hhex : hexDecode ("00" : String).data = some [0] := by decide
    have hvt : validateTag [0] = .ok () := rfl
    simp only [hhex, hvt]
    rw [if_neg (by simp)]
    simp only [Encode_nil]
    simp
  · simp [Decode, decodeTag, isMultiByte, and31]
  · intro data l hb hdec v c hmem
    have := decode_no00 data hb l hdec ⟨"00", v, c⟩ (mem_preorder l _ hmem)
    simp [TLV.Tag] at this

/-- C10 witness: the value `[1, 0]` — its encoding under tag `00` decodes,
after the pad skip, to one unrelated record, never to the original node. -/
theorem C10_witness :
    Encode [⟨"00", [1, 0], []⟩] = .ok (0 :: (encodeLength 2 ++ [1, 0])) ∧
    (⟨"00", [1, 0], []⟩ : TLV) ∉ [(⟨"02", [0], []⟩ : TLV)] :=
  ⟨C10_tag00_not_roundtrippable.1 [1, 0],
   C10_tag00_not_roundtrippable.2.2 [0, 2, 1, 0] [⟨"02", [0], []⟩] (by decide)
     (by simp [Decode, decodeTag, isMultiByte, decodeLength, isConstructed, upperHex,
       toUpperString, hexEncodeToString, lowerHexDigit, hextable, and31, and32, and127,
       and15, shr4]) [1, 0] []⟩

end BerTLV
